import Mathlib

/-!
# FlatHashMap (OrderMap.h): a shallow embedding and its verified properties

The table of `src/OrderMapExample/OrderMap.h` is an open-addressing hash map
with linear probing, tombstones and a probe counter that bounds every loop.

Conventions of the embedding

* `std::uint64_t` and `std::size_t` are natural numbers; every place where
  the C++ arithmetic can wrap carries an explicit `% 2 ^ 64`.
* The slot array `entries_` is a list; reading a slot outside of it is
  undefined behaviour in C++ and is the outcome `out_of_range` here.
* `construct` is the constructor once `new Entry[cap_]` has obtained its
  storage; `constructAlloc` is the constructor with the allocation, which
  can throw, against a free store of a given size.
* The `for (;;)` loops recurse on a fuel argument next to the source's own
  `probes` counter; running out of fuel is the outcome `out_of_fuel`.
* `Val* find` returns the address of a slot's value: the embedding returns
  the index of that slot, and `deref` reads the value stored there.
-/

set_option maxRecDepth 1000000

namespace OrderMap

/-- The record stored in the table (`struct Order`).  The `double price` is
kept as its 64-bit pattern: the table only copies values. -/
structure Order where
  orderID : Nat
  price : Nat
  side : Bool
  qty : Nat
deriving DecidableEq, Repr

/-- Keys are `std::uint64_t`. -/
abbrev Key := Nat

/-- One slot of the table (`struct Entry`). -/
structure Entry (Val : Type) where
  key : Key
  val : Val
deriving DecidableEq, Repr

/-- The table object: the slot array and the three `std::size_t` members. -/
structure FlatHashMap (Val : Type) where
  entries_ : List (Entry Val)
  cap_ : Nat
  mask_ : Nat
  size_ : Nat
deriving DecidableEq, Repr

/-- How a call ends: normally with a result, by the constructor's
`std::invalid_argument`, by a slot access outside the array, or because the
fuel of the embedding ran out. -/
inductive Outcome (α : Type) where
  | ok (a : α)
  | invalid_argument
  | out_of_range
  | out_of_fuel
deriving DecidableEq, Repr

def EMPTY : Key := 0
def TOMBSTONE : Key := 1
def MAX_PROBES : Nat := 128
def SPLITMIX6430 : Nat := 0xbf58476d1ce4e5b9
def SPLITMIX6427 : Nat := 0x94d049bb133111eb

/-- SplitMix64 finalizer, `hash64` of the source, on 64-bit words. -/
def hash64 (x : Nat) : Nat :=
  let x := x ^^^ (x >>> 30)
  let x := (x * SPLITMIX6430) % 2 ^ 64
  let x := x ^^^ (x >>> 27)
  let x := (x * SPLITMIX6427) % 2 ^ 64
  let x := x ^^^ (x >>> 31)
  x

/-- The loop of `ceil_pow2`, from the state `(x, i)`; `sizeof(std::size_t) * 8` is 64. -/
def ceil_pow2_loop : Nat → Nat → Nat → Outcome Nat
  | 0, _, _ => .out_of_fuel
  | fuel + 1, x, i =>
    if i < 64 then ceil_pow2_loop fuel (x ||| (x >>> i)) ((i <<< 1) % 2 ^ 64)
    else .ok x

/-- `std::size_t ceil_pow2(std::size_t x)`. -/
def ceil_pow2 (x : Nat) : Outcome Nat :=
  if x ≤ 1 then .ok 1
  else
    match ceil_pow2_loop 7 ((x + 2 ^ 64 - 1) % 2 ^ 64) 1 with
    | .ok x => .ok ((x + 1) % 2 ^ 64)
    | .invalid_argument => .invalid_argument
    | .out_of_range => .out_of_range
    | .out_of_fuel => .out_of_fuel

/-- One turn of the loop of `ceil_pow2`: `x |= x >> i`. -/
def smearStep (i x : Nat) : Nat := x ||| (x >>> i)

/-- Bit `j` of `z` is set exactly when one of the bits `j, ..., j + n - 1` of `y` is. -/
def Smeared (y n z : Nat) : Prop :=
  ∀ j, z.testBit j = true ↔ ∃ d, d < n ∧ y.testBit (j + d) = true

namespace FlatHashMap

variable {Val : Type}

/-- The constructor `FlatHashMap(std::size_t capacity_pow2)` when `new Entry[cap_]`
obtains its storage (`constructAlloc` adds the ways the allocation can end).
`new Entry[cap_]` leaves the values uninitialised; `uninit` stands for whatever
they hold. -/
def construct (uninit : Nat → Val) (capacity_pow2 : Nat) : Outcome (FlatHashMap Val) :=
  let cap := capacity_pow2
  let mask := (capacity_pow2 + 2 ^ 64 - 1) % 2 ^ 64
  if cap = 0 ∨ (cap &&& ((cap + 2 ^ 64 - 1) % 2 ^ 64)) ≠ 0 then
    .invalid_argument
  else
    .ok { entries_ := (List.range cap).map (fun i => { key := EMPTY, val := uninit i }),
          cap_ := cap, mask_ := mask, size_ := 0 }

/-- The size of a slot in bytes, `sizeof(Entry)`, on a target with 64-bit
`std::size_t`: `key` takes 8 bytes and `Order` 24 (`orderID` 8, `price` 8, `side` 1,
padding 3, `qty` 4). -/
def SIZEOF_ENTRY : Nat := 32

/-- How the constructor ends once its allocation is counted: with the table, by the
`std::invalid_argument` of the capacity check, or by one of the two exceptions of
`new Entry[cap_]`. -/
inductive Construction where
  | ok (t : FlatHashMap Order)
  | invalid_argument
  | bad_array_new_length
  | bad_alloc
deriving DecidableEq, Repr

/-- The constructor `FlatHashMap(std::size_t capacity_pow2)` together with its
allocation; `avail` is the number of bytes the free store can still provide.
After the capacity check, `new Entry[cap_]` throws `std::bad_array_new_length` when
the size of the array in bytes, `cap_ * sizeof(Entry)`, is not a `std::size_t`, and
`std::bad_alloc` when the free store cannot provide that many bytes; otherwise the
loop marks every slot `EMPTY`. -/
def constructAlloc (avail : Nat) (uninit : Nat → Order) (capacity_pow2 : Nat) : Construction :=
  let cap := capacity_pow2
  let mask := (capacity_pow2 + 2 ^ 64 - 1) % 2 ^ 64
  if cap = 0 ∨ (cap &&& ((cap + 2 ^ 64 - 1) % 2 ^ 64)) ≠ 0 then
    .invalid_argument
  else if 2 ^ 64 ≤ cap * SIZEOF_ENTRY then
    .bad_array_new_length
  else if avail < cap * SIZEOF_ENTRY then
    .bad_alloc
  else
    .ok { entries_ := (List.range cap).map (fun i => { key := EMPTY, val := uninit i }),
          cap_ := cap, mask_ := mask, size_ := 0 }

/-- The home slot of a key: `hash64(k) & mask_`. -/
def bucket (t : FlatHashMap Val) (k : Key) : Nat :=
  hash64 k &&& t.mask_

/-- The loop of `upsert`, from the state `(idx, probes)`. -/
def upsertLoop (t : FlatHashMap Val) (k : Key) (v : Val) :
    Nat → Nat → Nat → Outcome (Bool × FlatHashMap Val)
  | 0, _, _ => .out_of_fuel
  | fuel + 1, idx, probes =>
    match t.entries_[idx]? with
    | none => .out_of_range
    | some entry =>
      if entry.key = EMPTY ∨ entry.key = TOMBSTONE then
        .ok (true, { t with entries_ := t.entries_.set idx { key := k, val := v },
                            size_ := (t.size_ + 1) % 2 ^ 64 })
      else if entry.key = k then
        .ok (false, { t with entries_ := t.entries_.set idx { key := entry.key, val := v } })
      else
        let idx := ((idx + 1) % 2 ^ 64) &&& t.mask_
        let probes := probes + 1
        if probes > MAX_PROBES then .ok (false, t)
        else upsertLoop t k v fuel idx probes

/-- `bool upsert(Key k, const Val& v)`. -/
def upsert (t : FlatHashMap Val) (k : Key) (v : Val) : Outcome (Bool × FlatHashMap Val) :=
  upsertLoop t k v (MAX_PROBES + 1) (bucket t k) 0

/-- The loop of `find`, from the state `(idx, probes)`. -/
def findLoop (t : FlatHashMap Val) (k : Key) : Nat → Nat → Nat → Outcome (Option Nat)
  | 0, _, _ => .out_of_fuel
  | fuel + 1, idx, probes =>
    match t.entries_[idx]? with
    | none => .out_of_range
    | some entry =>
      if entry.key = EMPTY then .ok none
      else if entry.key = k then .ok (some idx)
      else
        let idx := ((idx + 1) % 2 ^ 64) &&& t.mask_
        let probes := probes + 1
        if probes > MAX_PROBES then .ok none
        else findLoop t k fuel idx probes

/-- `Val* find(Key k)`: `none` is `nullptr`, `some i` is `&entries_[i].val`. -/
def find (t : FlatHashMap Val) (k : Key) : Outcome (Option Nat) :=
  findLoop t k (MAX_PROBES + 1) (bucket t k) 0

/-- Reading through a pointer returned by `find`. -/
def deref (t : FlatHashMap Val) (p : Nat) : Option Val :=
  (t.entries_[p]?).map Entry.val

/-- The loop of `erase`, from the state `(idx, probes)`. -/
def eraseLoop (t : FlatHashMap Val) (k : Key) :
    Nat → Nat → Nat → Outcome (Bool × FlatHashMap Val)
  | 0, _, _ => .out_of_fuel
  | fuel + 1, idx, probes =>
    match t.entries_[idx]? with
    | none => .out_of_range
    | some entry =>
      if entry.key = EMPTY then .ok (false, t)
      else if entry.key = k then
        .ok (true, { t with entries_ := t.entries_.set idx { key := TOMBSTONE, val := entry.val },
                            size_ := (t.size_ + 2 ^ 64 - 1) % 2 ^ 64 })
      else
        let idx := ((idx + 1) % 2 ^ 64) &&& t.mask_
        let probes := probes + 1
        if probes > MAX_PROBES then .ok (false, t)
        else eraseLoop t k fuel idx probes

/-- `bool erase(Key k)`. -/
def erase (t : FlatHashMap Val) (k : Key) : Outcome (Bool × FlatHashMap Val) :=
  eraseLoop t k (MAX_PROBES + 1) (bucket t k) 0

/-- `std::size_t size() const`. -/
def size (t : FlatHashMap Val) : Nat := t.size_

/-- The key stored in slot `i`, when the array has such a slot. -/
def keyAt (t : FlatHashMap Val) (i : Nat) : Option Key :=
  (t.entries_[i]?).map Entry.key

/-- The `j`-th slot of the probe sequence of `k`:
`bucket(k), bucket(k)+1, ...` modulo the capacity. -/
def probe (t : FlatHashMap Val) (k : Key) (j : Nat) : Nat :=
  (bucket t k + j) % t.cap_

/-- What the constructor establishes and every operation keeps: the capacity is
a power of two that fits a `std::size_t`, the mask is the capacity minus one,
the array has `cap_` slots and `size_` is a `std::size_t`. -/
structure WF (t : FlatHashMap Val) : Prop where
  pow2 : ∃ n, n < 64 ∧ t.cap_ = 2 ^ n
  mask_eq : t.mask_ = t.cap_ - 1
  len : t.entries_.length = t.cap_
  size_lt : t.size_ < 2 ^ 64

/-- Slot `probe t k j` stops the loop of `upsert`: it is `EMPTY`, `TOMBSTONE`
or holds `k`. -/
def hitU (t : FlatHashMap Val) (k : Key) (j : Nat) : Bool :=
  decide (keyAt t (probe t k j) = some EMPTY ∨ keyAt t (probe t k j) = some TOMBSTONE
    ∨ keyAt t (probe t k j) = some k)

/-- Slot `probe t k j` stops the loops of `find` and `erase`: it is `EMPTY` or
holds `k`. -/
def hitF (t : FlatHashMap Val) (k : Key) (j : Nat) : Bool :=
  decide (keyAt t (probe t k j) = some EMPTY ∨ keyAt t (probe t k j) = some k)

/-- First `m` in `[j, j + n)` with `p m`, if there is one. -/
def firstHit (p : Nat → Bool) : Nat → Nat → Option Nat
  | 0, _ => none
  | n + 1, j => if p j then some j else firstHit p n (j + 1)

/-- The table after slot `i` received the entry `e` and the count `sz`. -/
def setSlot (t : FlatHashMap Val) (i : Nat) (e : Entry Val) (sz : Nat) : FlatHashMap Val :=
  { t with entries_ := t.entries_.set i e, size_ := sz }

/-- The table after slot `i` was turned into a tombstone by `erase`. -/
def eraseAt (t : FlatHashMap Val) (i : Nat) : FlatHashMap Val :=
  match t.entries_[i]? with
  | some e => setSlot t i { key := TOMBSTONE, val := e.val } ((t.size_ + 2 ^ 64 - 1) % 2 ^ 64)
  | none => t

/-- A key a caller may use: neither of the two reserved values. -/
def nonSentinel (k : Key) : Prop := k ≠ EMPTY ∧ k ≠ TOMBSTONE

instance (k : Key) : Decidable (nonSentinel k) := by
  unfold nonSentinel
  exact inferInstance

/-- The table states a caller can produce: construction with a capacity that is
a `std::size_t`, followed by `upsert` and `erase` calls with non-sentinel keys
(`find` does not change the table). -/
inductive Reachable : FlatHashMap Val → Prop where
  | construct (uninit : Nat → Val) (c : Nat) (t : FlatHashMap Val) :
      c < 2 ^ 64 → construct uninit c = .ok t → Reachable t
  | upsert (t : FlatHashMap Val) (k : Key) (v : Val) (b : Bool) (t' : FlatHashMap Val) :
      Reachable t → nonSentinel k → upsert t k v = .ok (b, t') → Reachable t'
  | erase (t : FlatHashMap Val) (k : Key) (b : Bool) (t' : FlatHashMap Val) :
      Reachable t → nonSentinel k → erase t k = .ok (b, t') → Reachable t'

/-- The round trip of `upsert(k, v)` followed by `find(k)`: both calls return, the
second one with a pointer to a slot whose value is `v`. -/
def RoundTrip (t : FlatHashMap Val) (k : Key) (v : Val) : Prop :=
  ∃ b t' i, upsert t k v = .ok (b, t') ∧ find t' k = .ok (some i) ∧ deref t' i = some v

/-- Some slot among the first `MAX_PROBES + 1` of the probe sequence of `k` is
`EMPTY`, `TOMBSTONE` or holds `k`: `upsert(k, _)` is not rejected. -/
def Accepts (t : FlatHashMap Val) (k : Key) : Prop :=
  ∃ j, j ≤ MAX_PROBES ∧ (keyAt t (probe t k j) = some EMPTY ∨
    keyAt t (probe t k j) = some TOMBSTONE ∨ keyAt t (probe t k j) = some k)

/-- A sample order with the given identifier. -/
def sampleOrder (id : Nat) : Order :=
  { orderID := id, price := 100, side := false, qty := 10 }

/-- Sample content of freshly allocated slots. -/
def zeroOrder : Nat → Order :=
  fun _ => { orderID := 0, price := 0, side := false, qty := 0 }

/-- A fresh table of capacity 1. -/
def emptyOne : FlatHashMap Order :=
  { entries_ := [{ key := 0, val := zeroOrder 0 }], cap_ := 1, mask_ := 0, size_ := 0 }

/-- The table of capacity 1 after `upsert(2, sampleOrder 2)`. -/
def fullOne : FlatHashMap Order :=
  { entries_ := [{ key := 2, val := sampleOrder 2 }], cap_ := 1, mask_ := 0, size_ := 1 }

/-- One call on the table. -/
inductive Op (Val : Type) where
  | upsert (k : Key) (v : Val)
  | find (k : Key)
  | erase (k : Key)
deriving DecidableEq, Repr

/-- The key a call is about. -/
def Op.key : Op Val → Key
  | .upsert k _ => k
  | .find k => k
  | .erase k => k

/-- A table together with the number of `upsert` calls that returned `true` and
the number of `erase` calls that returned `true` so far. -/
structure Trace (Val : Type) where
  table : FlatHashMap Val
  inserted : Nat
  removed : Nat
deriving DecidableEq, Repr

/-- One call, with the bookkeeping of `Trace`. -/
def Trace.step (s : Trace Val) : Op Val → Outcome (Trace Val)
  | .upsert k v =>
    match upsert s.table k v with
    | .ok (b, t') =>
      .ok { table := t', inserted := if b then s.inserted + 1 else s.inserted,
            removed := s.removed }
    | .invalid_argument => .invalid_argument
    | .out_of_range => .out_of_range
    | .out_of_fuel => .out_of_fuel
  | .find k =>
    match find s.table k with
    | .ok _ => .ok s
    | .invalid_argument => .invalid_argument
    | .out_of_range => .out_of_range
    | .out_of_fuel => .out_of_fuel
  | .erase k =>
    match erase s.table k with
    | .ok (b, t') =>
      .ok { table := t', inserted := s.inserted,
            removed := if b then s.removed + 1 else s.removed }
    | .invalid_argument => .invalid_argument
    | .out_of_range => .out_of_range
    | .out_of_fuel => .out_of_fuel

/-- A sequence of calls, one after the other. -/
def Trace.run (s : Trace Val) : List (Op Val) → Outcome (Trace Val)
  | [] => .ok s
  | op :: ops =>
    match s.step op with
    | .ok s' => s'.run ops
    | .invalid_argument => .invalid_argument
    | .out_of_range => .out_of_range
    | .out_of_fuel => .out_of_fuel

/-- A fresh table of capacity 2. -/
def emptyTwo : FlatHashMap Order :=
  { entries_ := [{ key := 0, val := zeroOrder 0 }, { key := 0, val := zeroOrder 1 }],
    cap_ := 2, mask_ := 1, size_ := 0 }

/-- The table of capacity 2 after `upsert(2, _)`, `upsert(3, _)`, `erase(2)`:
keys 2 and 3 share the home slot 0, so 3 sits in slot 1 behind a tombstone. -/
def tombTwo : FlatHashMap Order :=
  { entries_ := [{ key := 1, val := sampleOrder 2 }, { key := 3, val := sampleOrder 3 }],
    cap_ := 2, mask_ := 1, size_ := 1 }

/-- The table `tombTwo` after one more `upsert(3, sampleOrder 33)`: key 3 is now
held by both slots. -/
def dupTwo : FlatHashMap Order :=
  { entries_ := [{ key := 3, val := sampleOrder 33 }, { key := 3, val := sampleOrder 3 }],
    cap_ := 2, mask_ := 1, size_ := 2 }

/-- The outcome C3 asks of `upsert(k, v1)` followed by `upsert(k, v2)`: both calls
return, afterwards exactly one slot holds key `k` and its value is `v2`, and
`size()` is the same after the second call as after the first. -/
def IdempotentUpdate (t : FlatHashMap Val) (k : Key) (v1 v2 : Val) : Prop :=
  ∃ b1 t1 b2 t2, upsert t k v1 = .ok (b1, t1) ∧ upsert t1 k v2 = .ok (b2, t2) ∧
    (∃ i, t2.entries_[i]? = some { key := k, val := v2 } ∧
      ∀ j, keyAt t2 j = some k → j = i) ∧
    size t2 = size t1

/-- Every slot that holds `k` is the slot at which `upsert(k, _)` stops: it lies
among the first `MAX_PROBES + 1` slots of the probe sequence of `k` and no slot
before it on that sequence is `EMPTY`, `TOMBSTONE` or holds `k`. -/
def OnlyAtFirstStop (t : FlatHashMap Val) (k : Key) : Prop :=
  ∀ i, keyAt t i = some k →
    ∃ j, j ≤ MAX_PROBES ∧ probe t k j = i ∧ ∀ j', j' < j → hitU t k j' = false

/-- A fresh table of capacity 256. -/
def fresh256 : FlatHashMap Order :=
  { entries_ := (List.range 256).map (fun i => { key := EMPTY, val := zeroOrder i }),
    cap_ := 256, mask_ := 255, size_ := 0 }

/-- One hundred and twenty-eight keys; the home slot of the `j`-th one at capacity 256
is `j`, for `j = 0, ..., 127`. -/
def chainKeys : List Key :=
  [582, 410, 93, 254, 56, 571, 299, 739, 175, 363, 80, 82, 824, 256, 178, 201, 267, 57, 119,
   158, 4, 63, 279, 101, 37, 133, 471, 409, 47, 250, 59, 149, 1034, 273, 42, 74, 332, 40,
   159, 52, 200, 14, 327, 442, 213, 290, 901, 181, 50, 964, 216, 197, 100, 155, 231, 644,
   25, 15, 370, 452, 34, 118, 176, 61, 165, 261, 109, 198, 277, 32, 148, 157, 112, 21, 489,
   46, 895, 439, 315, 66, 241, 350, 29, 114, 240, 129, 90, 19, 215, 388, 95, 707, 54, 140,
   249, 98, 160, 511, 2639, 464, 48, 31, 1306, 89, 211, 106, 310, 62, 6, 11, 38, 88, 218,
   18, 30, 229, 459, 162, 124, 111, 58, 10, 152, 22, 70, 987, 113, 404]

/-- The calls that upsert the keys of `chainKeys` one after the other. -/
def chainOps : List (Op Order) := chainKeys.map (fun k => Op.upsert k (sampleOrder k))

/-- The table of capacity 256 after `chainOps`: slots 0 to 127 hold the keys of
`chainKeys`, slots 128 to 255 are `EMPTY`. -/
def chainTable : FlatHashMap Order :=
  { entries_ := chainKeys.map (fun k => { key := k, val := sampleOrder k }) ++
      (List.range 128).map (fun i => { key := EMPTY, val := zeroOrder (128 + i) }),
    cap_ := 256, mask_ := 255, size_ := 128 }

/-- A fresh table of capacity 8. -/
def emptyEight : FlatHashMap Order :=
  { entries_ := (List.range 8).map (fun i => { key := EMPTY, val := zeroOrder i }),
    cap_ := 8, mask_ := 7, size_ := 0 }

/-- The table of capacity 8 after `upsert(2, _)`, `upsert(10, _)`, `upsert(18, _)`.
Key 2 has home slot 2; keys 10 and 18 share home slot 1, so 18 probes slots 1, 2, 3
and sits in slot 3, behind keys 10 and 2. -/
def eightTable : FlatHashMap Order :=
  { entries_ := [{ key := 0, val := zeroOrder 0 }, { key := 10, val := sampleOrder 10 },
      { key := 2, val := sampleOrder 2 }, { key := 18, val := sampleOrder 18 },
      { key := 0, val := zeroOrder 4 }, { key := 0, val := zeroOrder 5 },
      { key := 0, val := zeroOrder 6 }, { key := 0, val := zeroOrder 7 }],
    cap_ := 8, mask_ := 7, size_ := 3 }

/-- The result of `find(k)` on `t`, read through: not-found, or the slot and the value
stored in it. -/
def findEntry (t : FlatHashMap Val) (k : Key) : Outcome (Option (Nat × Option Val)) :=
  match find t k with
  | .ok none => .ok none
  | .ok (some i) => .ok (some (i, deref t i))
  | .invalid_argument => .invalid_argument
  | .out_of_range => .out_of_range
  | .out_of_fuel => .out_of_fuel

/-- The table of capacity 1 after `upsert(2, _)` and `erase(2)`. -/
def tombOne : FlatHashMap Order :=
  { entries_ := [{ key := 1, val := sampleOrder 2 }], cap_ := 1, mask_ := 0, size_ := 0 }

/-- A slot is occupied when its key is neither `EMPTY` nor `TOMBSTONE`. -/
def isOccupied (e : Entry Val) : Bool :=
  decide (e.key ≠ EMPTY ∧ e.key ≠ TOMBSTONE)

/-- The number of occupied slots. -/
def occupied (t : FlatHashMap Val) : Nat :=
  t.entries_.countP isOccupied

/-- The bookkeeping invariant of a run: the table is well formed, `size_` is the
number of occupied slots, and `size_` plus the successful erases is the number of
successful inserts. -/
structure Trace.Balanced (s : Trace Val) : Prop where
  wf : WF s.table
  size_occ : s.table.size_ = occupied s.table
  balance : s.table.size_ + s.removed = s.inserted

/-- The table of capacity 1 after `upsert(2, _)`, `erase(2)` and `erase(1)`: the
count has wrapped around. -/
def wrappedOne : FlatHashMap Order :=
  { entries_ := [{ key := 1, val := sampleOrder 2 }], cap_ := 1, mask_ := 0,
    size_ := 2 ^ 64 - 1 }

/-- A short run on the capacity-8 table: three inserts, an update, two lookups, an
erase that succeeds and one that does not. -/
def sampleOps : List (Op Order) :=
  [.upsert 2 (sampleOrder 2), .upsert 10 (sampleOrder 10), .find 10, .upsert 18 (sampleOrder 18),
   .upsert 10 (sampleOrder 11), .erase 2, .find 2, .erase 2]

/-- Upsert the pairs of a list one after the other; the results of the calls, in
order, and the final table. -/
def upsertAll (t : FlatHashMap Val) : List (Key × Val) → Outcome (List Bool × FlatHashMap Val)
  | [] => .ok ([], t)
  | (k, v) :: rest =>
    match upsert t k v with
    | .ok (b, t') =>
      match upsertAll t' rest with
      | .ok (bs, t'') => .ok (b :: bs, t'')
      | .invalid_argument => .invalid_argument
      | .out_of_range => .out_of_range
      | .out_of_fuel => .out_of_fuel
    | .invalid_argument => .invalid_argument
    | .out_of_range => .out_of_range
    | .out_of_fuel => .out_of_fuel

/-- Erase the keys of a list one after the other; the results of the calls, in order,
and the final table. -/
def eraseAll (t : FlatHashMap Val) : List Key → Outcome (List Bool × FlatHashMap Val)
  | [] => .ok ([], t)
  | k :: rest =>
    match erase t k with
    | .ok (b, t') =>
      match eraseAll t' rest with
      | .ok (bs, t'') => .ok (b :: bs, t'')
      | .invalid_argument => .invalid_argument
      | .out_of_range => .out_of_range
      | .out_of_fuel => .out_of_fuel
    | .invalid_argument => .invalid_argument
    | .out_of_range => .out_of_range
    | .out_of_fuel => .out_of_fuel

/-- The scenario of C7 on a table of capacity `c`: the pairs of `l1` are upserted into
a fresh table, their keys are erased, the pairs of `l2` are upserted, all calls return,
and every upsert of `l2` returns `true`. -/
def TombstoneReuse (uninit : Nat → Val) (c : Nat) (l1 l2 : List (Key × Val)) : Prop :=
  ∃ t0 r1 t1 r2 t2 t3, construct uninit c = .ok t0 ∧ upsertAll t0 l1 = .ok (r1, t1) ∧
    eraseAll t1 (l1.map Prod.fst) = .ok (r2, t2) ∧
    upsertAll t2 l2 = .ok (List.replicate l2.length true, t3)

/-- Some slot holds key `k`. -/
def present (t : FlatHashMap Val) (k : Key) : Prop :=
  ∃ i, keyAt t i = some k

/-- Every live key sits where the loops of `find` and `erase` stop for it: within the
first `MAX_PROBES + 1` slots of its probe sequence, with no `EMPTY` slot and no other
slot holding the same key before it. -/
def Findable (t : FlatHashMap Val) : Prop :=
  ∀ i k, keyAt t i = some k → nonSentinel k →
    ∃ j, j ≤ MAX_PROBES ∧ probe t k j = i ∧ ∀ j', j' < j → hitF t k j' = false

/-- The pairs `(k, sampleOrder k)` for the keys of a list. -/
def pairsOf (keys : List Key) : List (Key × Order) :=
  keys.map (fun k => (k, sampleOrder k))

/-- One hundred and thirty keys; the home slot of the `j`-th one at capacity 512 is
`j`, for `j = 0, ..., 129`. -/
def firstKeys : List Key :=
  [143, 1035, 93, 1464, 56, 703, 299, 739, 823, 424, 258, 1101, 824, 1487, 178, 201, 614,
   57, 751, 643, 938, 63, 279, 164, 37, 199, 471, 1315, 47, 2294, 59, 196, 1413, 734, 42,
   494, 332, 1173, 159, 52, 257, 14, 568, 442, 850, 290, 1460, 497, 1137, 1441, 216, 197,
   330, 666, 231, 748, 25, 620, 527, 452, 34, 118, 176, 298, 165, 296, 192, 457, 641, 732,
   148, 157, 305, 664, 1223, 530, 895, 439, 806, 66, 241, 400, 142, 390, 240, 572, 90, 19,
   215, 426, 95, 707, 166, 140, 249, 994, 160, 511, 2869, 640, 432, 272, 1358, 89, 211,
   106, 334, 62, 845, 1292, 1607, 88, 218, 18, 30, 382, 459, 230, 807, 169, 219, 516, 214,
   235, 772, 1056, 275, 656, 69, 2113]

/-- One hundred and thirty keys, none of them in `firstKeys`; at capacity 512 the home
slot of the `j`-th one is `j` for `j = 0, ..., 128`, and the home slot of the last one
is 0. -/
def secondKeys : List Key :=
  [1164, 2052, 557, 3005, 867, 950, 907, 1516, 999, 453, 768, 1189, 1171, 2237, 2000, 940,
   686, 1008, 1205, 726, 1918, 1268, 1493, 541, 1961, 360, 522, 1484, 417, 2737, 701, 264,
   1475, 1088, 1758, 719, 945, 1539, 702, 321, 506, 889, 1325, 758, 1732, 303, 1545, 1436,
   2217, 2032, 266, 704, 473, 1024, 1079, 1391, 880, 689, 770, 487, 550, 539, 488, 724,
   515, 1407, 212, 565, 1109, 1568, 302, 470, 663, 1572, 1778, 696, 947, 2198, 1924, 193,
   490, 514, 225, 697, 543, 654, 367, 344, 954, 1329, 398, 1111, 989, 227, 391, 3418, 1183,
   1524, 2909, 1052, 1440, 399, 1621, 141, 443, 708, 1891, 421, 1121, 1326, 2586, 939, 683,
   154, 174, 777, 1426, 687, 928, 1272, 234, 1392, 1360, 236, 2009, 1203, 287, 833, 369,
   1941]

/-- A fresh table of capacity 512. -/
def fresh512 : FlatHashMap Order :=
  { entries_ := (List.range 512).map (fun i => { key := EMPTY, val := zeroOrder i }),
    cap_ := 512, mask_ := 511, size_ := 0 }

/-- The table of capacity 512 after the keys of `firstKeys` were upserted: each sits
in its home slot. -/
def afterFirst : FlatHashMap Order :=
  { entries_ := firstKeys.map (fun k => { key := k, val := sampleOrder k }) ++
      (List.range 382).map (fun i => { key := EMPTY, val := zeroOrder (130 + i) }),
    cap_ := 512, mask_ := 511, size_ := 130 }

/-- The table `afterFirst` after the keys of `firstKeys` were erased: slots 0 to 129
are tombstones. -/
def afterErase : FlatHashMap Order :=
  { entries_ := firstKeys.map (fun k => { key := TOMBSTONE, val := sampleOrder k }) ++
      (List.range 382).map (fun i => { key := EMPTY, val := zeroOrder (130 + i) }),
    cap_ := 512, mask_ := 511, size_ := 0 }

/-- The table `afterErase` after the keys of `secondKeys` were upserted: the first 129
sit in slots 0 to 128, the last one was rejected and slot 129 is still a tombstone. -/
def afterSecond : FlatHashMap Order :=
  { entries_ := (secondKeys.take 129).map (fun k => { key := k, val := sampleOrder k }) ++
      { key := TOMBSTONE, val := sampleOrder (firstKeys.getD 129 0) } ::
      (List.range 382).map (fun i => { key := EMPTY, val := zeroOrder (130 + i) }),
    cap_ := 512, mask_ := 511, size_ := 129 }

/-- The call `upsert(k, v)` is not rejected: it returns `true` (inserted), or `find(k)`
is already non-null before the call (the key is there to be updated). -/
def NotRejected (t : FlatHashMap Val) (k : Key) (v : Val) : Prop :=
  (∃ t', upsert t k v = .ok (true, t')) ∨ (∃ i, find t k = .ok (some i))

/-- The call `upsert(k, v)` inserts a key that no slot holds, or updates in place the
one slot that holds it: either no slot holds `k` and the call returns `true`, or
exactly one slot holds `k`, `find(k)` returns that slot and the call returns `false`. -/
def InsertsOrUpdatesInPlace (t : FlatHashMap Val) (k : Key) (v : Val) : Prop :=
  (¬ present t k ∧ ∃ t1, upsert t k v = .ok (true, t1)) ∨
  (∃ i t1, find t k = .ok (some i) ∧ (∀ j, keyAt t j = some k → j = i) ∧
    upsert t k v = .ok (false, t1))

/-- Slot `probe t k m` holds `k`, lies among the `MAX_PROBES + 1` slots that `find` and
`erase` examine, and no slot before it on the probe sequence of `k` is `EMPTY` or
holds `k`. -/
def FoundAt (t : FlatHashMap Val) (k : Key) (m : Nat) : Prop :=
  m ≤ MAX_PROBES ∧ keyAt t (probe t k m) = some k ∧
  ∀ j, j < m → keyAt t (probe t k j) ≠ some EMPTY ∧ keyAt t (probe t k j) ≠ some k

/-- The three logical states of a slot. -/
inductive SlotState where
  | empty
  | tombstone
  | occupied
deriving DecidableEq, Repr

/-- The state that a key value stands for. -/
def stateOfKey (k : Key) : SlotState :=
  if k = EMPTY then .empty else if k = TOMBSTONE then .tombstone else .occupied

/-- The state of slot `i`, when the array has such a slot. -/
def slotState (t : FlatHashMap Val) (i : Nat) : Option SlotState :=
  (keyAt t i).map stateOfKey

/-- The moves of the slot state machine: stay, `EMPTY → OCCUPIED`,
`OCCUPIED → OCCUPIED`, `OCCUPIED → TOMBSTONE`, `TOMBSTONE → OCCUPIED`. -/
def Transition (a b : SlotState) : Prop :=
  a = b ∨ (a = .empty ∧ b = .occupied) ∨ (a = .occupied ∧ b = .occupied) ∨
  (a = .occupied ∧ b = .tombstone) ∨ (a = .tombstone ∧ b = .occupied)

/-- Every live key lies among the first `MAX_PROBES + 1` slots of its probe sequence
and no slot before it on that sequence is `EMPTY`. -/
def NoEmptyBefore (t : FlatHashMap Val) : Prop :=
  ∀ i k, keyAt t i = some k → nonSentinel k →
    ∃ j, j ≤ MAX_PROBES ∧ probe t k j = i ∧
      ∀ j', j' < j → keyAt t (probe t k j') ≠ some EMPTY

end FlatHashMap

end OrderMap

namespace OrderMap

namespace FlatHashMap

variable {Val : Type}

/-! ## Searching an interval -/

theorem firstHit_eq_none {p : Nat → Bool} : ∀ {n j : Nat},
    firstHit p n j = none ↔ ∀ i, j ≤ i → i < j + n → p i = false
  | 0, j => by
    simp only [firstHit, true_iff]
    intro i h1 h2
    omega
  | n + 1, j => by
    unfold firstHit
    by_cases hp : p j = true
    · simp only [hp, if_true]
      constructor
      · intro h; cases h
      · intro h
        have := h j (Nat.le_refl j) (by omega)
        rw [hp] at this
        cases this
    · have hp2 : p j = false := by simpa using hp
      simp only [hp2, Bool.false_eq_true, if_false]
      rw [firstHit_eq_none]
      constructor
      · intro h i h1 h2
        rcases Nat.eq_or_lt_of_le h1 with h3 | h3
        · rw [← h3]; exact hp2
        · exact h i h3 (by omega)
      · intro h i h1 h2
        exact h i (by omega) (by omega)

theorem firstHit_eq_some {p : Nat → Bool} : ∀ {n j m : Nat},
    firstHit p n j = some m ↔
      j ≤ m ∧ m < j + n ∧ p m = true ∧ ∀ i, j ≤ i → i < m → p i = false
  | 0, j, m => by
    simp only [firstHit]
    constructor
    · intro h; cases h
    · rintro ⟨h1, h2, _⟩
      omega
  | n + 1, j, m => by
    unfold firstHit
    by_cases hp : p j = true
    · simp only [hp, if_true, Option.some.injEq]
      constructor
      · intro h
        subst h
        exact ⟨Nat.le_refl _, by omega, hp, fun i h1 h2 => by omega⟩
      · rintro ⟨h1, _, _, h4⟩
        rcases Nat.eq_or_lt_of_le h1 with h3 | h3
        · exact h3
        · have := h4 j (Nat.le_refl j) h3
          rw [hp] at this
          cases this
    · have hp2 : p j = false := by simpa using hp
      simp only [hp2, Bool.false_eq_true, if_false]
      rw [firstHit_eq_some]
      constructor
      · rintro ⟨h1, h2, h3, h4⟩
        refine ⟨by omega, by omega, h3, ?_⟩
        intro i hi1 hi2
        rcases Nat.eq_or_lt_of_le hi1 with h5 | h5
        · rw [← h5]; exact hp2
        · exact h4 i h5 hi2
      · rintro ⟨h1, h2, h3, h4⟩
        have hne : j ≠ m := by
          intro h
          rw [h, h3] at hp2
          cases hp2
        exact ⟨by omega, by omega, h3, fun i hi1 hi2 => h4 i (by omega) hi2⟩

/-! ## Well-formed tables: indices and probe sequences -/

theorem WF.cap_pos {t : FlatHashMap Val} (h : WF t) : 0 < t.cap_ := by
  obtain ⟨n, _, hn⟩ := h.pow2
  rw [hn]
  exact Nat.pos_pow_of_pos n (by decide)

theorem WF.cap_le {t : FlatHashMap Val} (h : WF t) : t.cap_ ≤ 2 ^ 63 := by
  obtain ⟨n, hn1, hn⟩ := h.pow2
  rw [hn]
  exact Nat.pow_le_pow_right (by decide) (by omega)

theorem WF.and_mask {t : FlatHashMap Val} (h : WF t) (x : Nat) :
    x &&& t.mask_ = x % t.cap_ := by
  obtain ⟨n, _, hn⟩ := h.pow2
  rw [h.mask_eq, hn]
  exact Nat.and_pow_two_sub_one_eq_mod x n

theorem WF.bucket_lt {t : FlatHashMap Val} (h : WF t) (k : Key) : bucket t k < t.cap_ := by
  unfold bucket
  rw [h.and_mask]
  exact Nat.mod_lt _ h.cap_pos

theorem WF.probe_lt {t : FlatHashMap Val} (h : WF t) (k : Key) (j : Nat) :
    probe t k j < t.cap_ :=
  Nat.mod_lt _ h.cap_pos

theorem WF.probe_zero {t : FlatHashMap Val} (h : WF t) (k : Key) :
    probe t k 0 = bucket t k := by
  unfold probe
  rw [Nat.add_zero]
  exact Nat.mod_eq_of_lt (h.bucket_lt k)

theorem WF.probe_step {t : FlatHashMap Val} (h : WF t) (k : Key) (j : Nat) :
    ((probe t k j + 1) % 2 ^ 64) &&& t.mask_ = probe t k (j + 1) := by
  have h1 : probe t k j < t.cap_ := h.probe_lt k j
  have h2 : t.cap_ ≤ 2 ^ 63 := h.cap_le
  have h3 : (probe t k j + 1) % 2 ^ 64 = probe t k j + 1 := Nat.mod_eq_of_lt (by omega)
  rw [h3, h.and_mask]
  unfold probe
  rw [Nat.mod_add_mod, Nat.add_assoc]

theorem WF.entry_at {t : FlatHashMap Val} (h : WF t) {i : Nat} (hi : i < t.cap_) :
    ∃ e, t.entries_[i]? = some e := by
  have hlen : i < t.entries_.length := by rw [h.len]; exact hi
  exact ⟨t.entries_[i], List.getElem?_eq_getElem hlen⟩

theorem keyAt_of_entry {t : FlatHashMap Val} {i : Nat} {e : Entry Val}
    (h : t.entries_[i]? = some e) : keyAt t i = some e.key := by
  unfold keyAt
  rw [h]
  rfl

/-! ## The three loops as a search along the probe sequence -/

theorem findLoop_eq {t : FlatHashMap Val} (h : WF t) (k : Key) : ∀ fuel j : Nat,
    j + fuel = MAX_PROBES →
    findLoop t k (fuel + 1) (probe t k j) j =
      match firstHit (hitF t k) (fuel + 1) j with
      | none => .ok none
      | some m =>
        if keyAt t (probe t k m) = some EMPTY then .ok none else .ok (some (probe t k m)) := by
  intro fuel
  induction fuel with
  | zero =>
    intro j hj
    obtain ⟨e, he⟩ := h.entry_at (h.probe_lt k j)
    have hk := keyAt_of_entry he
    unfold findLoop
    simp only [he]
    by_cases h1 : e.key = EMPTY
    · have hh : hitF t k j = true := by simp [hitF, hk, h1]
      simp [firstHit, hh, h1, hk]
    · by_cases h2 : e.key = k
      · have hh : hitF t k j = true := by simp [hitF, hk, h2]
        simp [firstHit, hh, h1, h2, hk]
      · have hh : hitF t k j = false := by simp [hitF, hk, h1, h2]
        have hp : j + 1 > MAX_PROBES := by omega
        simp [firstHit, hh, h1, h2, hp]
  | succ fuel ih =>
    intro j hj
    obtain ⟨e, he⟩ := h.entry_at (h.probe_lt k j)
    have hk := keyAt_of_entry he
    unfold findLoop
    simp only [he]
    by_cases h1 : e.key = EMPTY
    · have hh : hitF t k j = true := by simp [hitF, hk, h1]
      rw [firstHit]
      simp [hh, h1, hk]
    · by_cases h2 : e.key = k
      · have hh : hitF t k j = true := by simp [hitF, hk, h2]
        rw [firstHit]
        simp [hh, h1, h2, hk]
      · have hh : hitF t k j = false := by simp [hitF, hk, h1, h2]
        have hp : ¬ (j + 1 > MAX_PROBES) := by omega
        rw [firstHit]
        simp only [hh, h1, h2, hp, if_false, Bool.false_eq_true]
        rw [h.probe_step k j]
        exact ih (j + 1) (by omega)

theorem find_eq {t : FlatHashMap Val} (h : WF t) (k : Key) :
    find t k =
      match firstHit (hitF t k) (MAX_PROBES + 1) 0 with
      | none => .ok none
      | some m =>
        if keyAt t (probe t k m) = some EMPTY then .ok none else .ok (some (probe t k m)) := by
  have := findLoop_eq h k MAX_PROBES 0 (by omega)
  rw [h.probe_zero] at this
  exact this

theorem upsertLoop_eq {t : FlatHashMap Val} (h : WF t) (k : Key) (v : Val) : ∀ fuel j : Nat,
    j + fuel = MAX_PROBES →
    upsertLoop t k v (fuel + 1) (probe t k j) j =
      match firstHit (hitU t k) (fuel + 1) j with
      | none => .ok (false, t)
      | some m =>
        if keyAt t (probe t k m) = some EMPTY ∨ keyAt t (probe t k m) = some TOMBSTONE then
          .ok (true, setSlot t (probe t k m) { key := k, val := v } ((t.size_ + 1) % 2 ^ 64))
        else .ok (false, setSlot t (probe t k m) { key := k, val := v } t.size_) := by
  intro fuel
  induction fuel with
  | zero =>
    intro j hj
    obtain ⟨e, he⟩ := h.entry_at (h.probe_lt k j)
    have hk := keyAt_of_entry he
    unfold upsertLoop
    simp only [he]
    by_cases h1 : e.key = EMPTY ∨ e.key = TOMBSTONE
    · have hh : hitU t k j = true := by
        rcases h1 with h1 | h1 <;> simp [hitU, hk, h1]
      simp [firstHit, hh, h1, hk, setSlot]
    · by_cases h2 : e.key = k
      · have hh : hitU t k j = true := by simp [hitU, hk, h2]
        simp [firstHit, hh, h1, hk, setSlot]
        simp [h2]
      · have hh : hitU t k j = false := by
          simp only [not_or] at h1
          simp [hitU, hk, h1.1, h1.2, h2]
        have hp : j + 1 > MAX_PROBES := by omega
        simp [firstHit, hh, h1, h2, hp]
  | succ fuel ih =>
    intro j hj
    obtain ⟨e, he⟩ := h.entry_at (h.probe_lt k j)
    have hk := keyAt_of_entry he
    unfold upsertLoop
    simp only [he]
    by_cases h1 : e.key = EMPTY ∨ e.key = TOMBSTONE
    · have hh : hitU t k j = true := by
        rcases h1 with h1 | h1 <;> simp [hitU, hk, h1]
      rw [firstHit]
      simp [hh, h1, hk, setSlot]
    · by_cases h2 : e.key = k
      · have hh : hitU t k j = true := by simp [hitU, hk, h2]
        rw [firstHit]
        simp [hh, h1, hk, setSlot]
        simp [h2]
      · have hh : hitU t k j = false := by
          simp only [not_or] at h1
          simp [hitU, hk, h1.1, h1.2, h2]
        have hp : ¬ (j + 1 > MAX_PROBES) := by omega
        rw [firstHit]
        simp only [hh, h1, h2, hp, if_false, Bool.false_eq_true]
        rw [h.probe_step k j]
        exact ih (j + 1) (by omega)

theorem upsert_eq {t : FlatHashMap Val} (h : WF t) (k : Key) (v : Val) :
    upsert t k v =
      match firstHit (hitU t k) (MAX_PROBES + 1) 0 with
      | none => .ok (false, t)
      | some m =>
        if keyAt t (probe t k m) = some EMPTY ∨ keyAt t (probe t k m) = some TOMBSTONE then
          .ok (true, setSlot t (probe t k m) { key := k, val := v } ((t.size_ + 1) % 2 ^ 64))
        else .ok (false, setSlot t (probe t k m) { key := k, val := v } t.size_) := by
  have := upsertLoop_eq h k v MAX_PROBES 0 (by omega)
  rw [h.probe_zero] at this
  exact this

theorem eraseLoop_eq {t : FlatHashMap Val} (h : WF t) (k : Key) : ∀ fuel j : Nat,
    j + fuel = MAX_PROBES →
    eraseLoop t k (fuel + 1) (probe t k j) j =
      match firstHit (hitF t k) (fuel + 1) j with
      | none => .ok (false, t)
      | some m =>
        if keyAt t (probe t k m) = some EMPTY then .ok (false, t)
        else .ok (true, eraseAt t (probe t k m)) := by
  intro fuel
  induction fuel with
  | zero =>
    intro j hj
    obtain ⟨e, he⟩ := h.entry_at (h.probe_lt k j)
    have hk := keyAt_of_entry he
    unfold eraseLoop
    simp only [he]
    by_cases h1 : e.key = EMPTY
    · have hh : hitF t k j = true := by simp [hitF, hk, h1]
      simp [firstHit, hh, h1, hk]
    · by_cases h2 : e.key = k
      · have hh : hitF t k j = true := by simp [hitF, hk, h2]
        simp [firstHit, hh, h1, h2, hk, eraseAt, he, setSlot]
      · have hh : hitF t k j = false := by simp [hitF, hk, h1, h2]
        have hp : j + 1 > MAX_PROBES := by omega
        simp [firstHit, hh, h1, h2, hp]
  | succ fuel ih =>
    intro j hj
    obtain ⟨e, he⟩ := h.entry_at (h.probe_lt k j)
    have hk := keyAt_of_entry he
    unfold eraseLoop
    simp only [he]
    by_cases h1 : e.key = EMPTY
    · have hh : hitF t k j = true := by simp [hitF, hk, h1]
      rw [firstHit]
      simp [hh, h1, hk]
    · by_cases h2 : e.key = k
      · have hh : hitF t k j = true := by simp [hitF, hk, h2]
        rw [firstHit]
        simp [hh, h1, h2, hk, eraseAt, he, setSlot]
      · have hh : hitF t k j = false := by simp [hitF, hk, h1, h2]
        have hp : ¬ (j + 1 > MAX_PROBES) := by omega
        rw [firstHit]
        simp only [hh, h1, h2, hp, if_false, Bool.false_eq_true]
        rw [h.probe_step k j]
        exact ih (j + 1) (by omega)

theorem erase_eq {t : FlatHashMap Val} (h : WF t) (k : Key) :
    erase t k =
      match firstHit (hitF t k) (MAX_PROBES + 1) 0 with
      | none => .ok (false, t)
      | some m =>
        if keyAt t (probe t k m) = some EMPTY then .ok (false, t)
        else .ok (true, eraseAt t (probe t k m)) := by
  have := eraseLoop_eq h k MAX_PROBES 0 (by omega)
  rw [h.probe_zero] at this
  exact this

/-! ## Writing one slot -/

theorem keyAt_setSlot (t : FlatHashMap Val) {i : Nat} (e : Entry Val) (sz j : Nat)
    (hi : i < t.entries_.length) :
    keyAt (setSlot t i e sz) j = if j = i then some e.key else keyAt t j := by
  unfold keyAt setSlot
  simp only [List.getElem?_set]
  by_cases h : i = j
  · subst h
    simp [hi]
  · have h2 : ¬ j = i := fun h3 => h h3.symm
    simp [h, h2]

theorem WF.setSlot {t : FlatHashMap Val} (h : WF t) (i : Nat) (e : Entry Val) {sz : Nat}
    (hsz : sz < 2 ^ 64) : WF (setSlot t i e sz) where
  pow2 := h.pow2
  mask_eq := h.mask_eq
  len := by
    show (t.entries_.set i e).length = t.cap_
    rw [List.length_set]
    exact h.len
  size_lt := hsz

theorem probe_setSlot (t : FlatHashMap Val) (i : Nat) (e : Entry Val) (sz : Nat) (k : Key)
    (j : Nat) : probe (setSlot t i e sz) k j = probe t k j := rfl

theorem eraseAt_eq {t : FlatHashMap Val} {i : Nat} {e : Entry Val}
    (he : t.entries_[i]? = some e) :
    eraseAt t i = setSlot t i { key := TOMBSTONE, val := e.val }
      ((t.size_ + 2 ^ 64 - 1) % 2 ^ 64) := by
  unfold eraseAt
  rw [he]

theorem deref_setSlot_self (t : FlatHashMap Val) {i : Nat} (e : Entry Val) (sz : Nat)
    (hi : i < t.entries_.length) : deref (setSlot t i e sz) i = some e.val := by
  unfold deref setSlot
  simp [List.getElem?_set, hi]

theorem deref_setSlot_of_ne (t : FlatHashMap Val) {i j : Nat} (e : Entry Val) (sz : Nat)
    (h : j ≠ i) : deref (setSlot t i e sz) j = deref t j := by
  unfold deref setSlot
  have h2 : ¬ i = j := fun h3 => h h3.symm
  simp [List.getElem?_set, h2]

/-- Either no offset below `n` is a hit, or there is a first one. -/
theorem firstHit_cases (p : Nat → Bool) (n : Nat) :
    (firstHit p n 0 = none ∧ ∀ i, i < n → p i = false) ∨
    ∃ m, firstHit p n 0 = some m ∧ m < n ∧ p m = true ∧ ∀ i, i < m → p i = false := by
  cases hf : firstHit p n 0 with
  | none =>
    left
    refine ⟨rfl, ?_⟩
    intro i hi
    exact (firstHit_eq_none.mp hf) i (Nat.zero_le i) (by omega)
  | some m =>
    right
    obtain ⟨_, h2, h3, h4⟩ := firstHit_eq_some.mp hf
    exact ⟨m, rfl, by omega, h3, fun i hi => h4 i (Nat.zero_le i) hi⟩

/-- Two slots of one probe sequence that differ as hits are different slots. -/
theorem probe_ne_of_hit_ne {t : FlatHashMap Val} {k : Key} {p : FlatHashMap Val → Key → Nat → Bool}
    (hp : ∀ a b, probe t k a = probe t k b → p t k a = p t k b) {i m : Nat}
    (hi : p t k i = false) (hm : p t k m = true) : probe t k i ≠ probe t k m := by
  intro h
  have := hp i m h
  rw [hi, hm] at this
  cases this

theorem hitU_congr (t : FlatHashMap Val) (k : Key) (a b : Nat)
    (h : probe t k a = probe t k b) : hitU t k a = hitU t k b := by
  unfold hitU
  rw [h]

theorem hitF_congr (t : FlatHashMap Val) (k : Key) (a b : Nat)
    (h : probe t k a = probe t k b) : hitF t k a = hitF t k b := by
  unfold hitF
  rw [h]

/-! ## Construction -/

theorem and_pred_eq_zero_imp : ∀ c : Nat, 0 < c → c &&& (c - 1) = 0 → ∃ n, c = 2 ^ n := by
  intro c
  induction c using Nat.strong_induction_on with
  | _ c ih =>
    intro hpos hand
    by_cases h1 : c = 1
    · exact ⟨0, by simp [h1]⟩
    · have hdiv : c / 2 &&& (c - 1) / 2 = 0 := by
        rw [← Nat.and_div_two, hand]
      rcases Nat.mod_two_eq_zero_or_one c with hev | hodd
      · have h2 : (c - 1) / 2 = c / 2 - 1 := by omega
        rw [h2] at hdiv
        obtain ⟨n, hn⟩ := ih (c / 2) (by omega) (by omega) hdiv
        exact ⟨n + 1, by rw [Nat.pow_succ, ← hn]; omega⟩
      · have h2 : (c - 1) / 2 = c / 2 := by omega
        rw [h2, Nat.and_self] at hdiv
        omega

theorem pow_and_pred (n : Nat) : 2 ^ n &&& (2 ^ n - 1) = 0 := by
  rw [Nat.and_pow_two_sub_one_eq_mod]
  exact Nat.mod_self _

theorem wrap_pred {c : Nat} (h0 : 0 < c) (hc : c < 2 ^ 64) :
    (c + 2 ^ 64 - 1) % 2 ^ 64 = c - 1 := by
  omega

/-- The constructor's test rejects exactly zero and the non-powers of two. -/
theorem construct_guard {c : Nat} (hc : c < 2 ^ 64) :
    (c = 0 ∨ (c &&& ((c + 2 ^ 64 - 1) % 2 ^ 64)) ≠ 0) ↔ (c = 0 ∨ ¬ ∃ n, c = 2 ^ n) := by
  by_cases h0 : c = 0
  · simp [h0]
  · have hpos : 0 < c := Nat.pos_of_ne_zero h0
    rw [wrap_pred hpos hc]
    constructor
    · rintro (h | h)
      · exact absurd h h0
      · right
        rintro ⟨n, hn⟩
        apply h
        rw [hn]
        exact pow_and_pred n
    · rintro (h | h)
      · exact absurd h h0
      · right
        intro hz
        exact h (and_pred_eq_zero_imp c hpos hz)

theorem construct_ok {uninit : Nat → Val} {c : Nat} {t : FlatHashMap Val}
    (hc : c < 2 ^ 64) (h : construct uninit c = .ok t) :
    (∃ n, c = 2 ^ n) ∧
    t = { entries_ := (List.range c).map (fun i => { key := EMPTY, val := uninit i }),
          cap_ := c, mask_ := c - 1, size_ := 0 } := by
  unfold construct at h
  by_cases hg : c = 0 ∨ (c &&& ((c + 2 ^ 64 - 1) % 2 ^ 64)) ≠ 0
  · simp only [hg, if_true] at h
    cases h
  · simp only [hg, if_false] at h
    have hg2 := (not_congr (construct_guard hc)).mp hg
    simp only [not_or, not_not] at hg2
    have hpos : 0 < c := Nat.pos_of_ne_zero hg2.1
    rw [wrap_pred hpos hc] at h
    refine ⟨hg2.2, ?_⟩
    cases h
    rfl

theorem WF.of_construct {uninit : Nat → Val} {c : Nat} {t : FlatHashMap Val}
    (hc : c < 2 ^ 64) (h : construct uninit c = .ok t) : WF t := by
  obtain ⟨⟨n, hn⟩, ht⟩ := construct_ok hc h
  subst ht
  refine ⟨⟨n, ?_, hn⟩, rfl, by simp, by simp⟩
  by_contra hlt
  have : 2 ^ 64 ≤ 2 ^ n := Nat.pow_le_pow_right (by decide) (by omega)
  omega

/-! ## The operations keep the table well formed -/

theorem WF.of_upsert {t t' : FlatHashMap Val} {k : Key} {v : Val} {b : Bool} (h : WF t)
    (hu : upsert t k v = .ok (b, t')) : WF t' := by
  rw [upsert_eq h] at hu
  split at hu
  · cases hu; exact h
  · split at hu
    · cases hu
      exact h.setSlot _ _ (Nat.mod_lt _ (by decide))
    · cases hu
      exact h.setSlot _ _ h.size_lt

theorem WF.eraseAt {t : FlatHashMap Val} (h : WF t) (i : Nat) : WF (eraseAt t i) := by
  unfold FlatHashMap.eraseAt
  split
  · exact h.setSlot _ _ (Nat.mod_lt _ (by decide))
  · exact h

theorem WF.of_erase {t t' : FlatHashMap Val} {k : Key} {b : Bool} (h : WF t)
    (hu : erase t k = .ok (b, t')) : WF t' := by
  rw [erase_eq h] at hu
  split at hu
  · cases hu; exact h
  · split at hu
    · cases hu; exact h
    · cases hu
      exact h.eraseAt _

theorem Reachable.wf {t : FlatHashMap Val} (h : Reachable t) : WF t := by
  induction h with
  | construct uninit c t hc h => exact WF.of_construct hc h
  | upsert t k v b t' _ _ hu ih => exact ih.of_upsert hu
  | erase t k b t' _ _ hu ih => exact ih.of_erase hu

/-! ## Reading back what `upsert` wrote -/

theorem hitU_false_iff {t : FlatHashMap Val} {k : Key} {j : Nat} :
    hitU t k j = false ↔ keyAt t (probe t k j) ≠ some EMPTY ∧
      keyAt t (probe t k j) ≠ some TOMBSTONE ∧ keyAt t (probe t k j) ≠ some k := by
  unfold hitU
  simp only [decide_eq_false_iff_not, not_or]

theorem hitU_true_iff {t : FlatHashMap Val} {k : Key} {j : Nat} :
    hitU t k j = true ↔ (keyAt t (probe t k j) = some EMPTY ∨
      keyAt t (probe t k j) = some TOMBSTONE ∨ keyAt t (probe t k j) = some k) := by
  unfold hitU
  simp only [decide_eq_true_eq]

theorem hitF_false_iff {t : FlatHashMap Val} {k : Key} {j : Nat} :
    hitF t k j = false ↔ keyAt t (probe t k j) ≠ some EMPTY ∧
      keyAt t (probe t k j) ≠ some k := by
  unfold hitF
  simp only [decide_eq_false_iff_not, not_or]

theorem hitF_true_iff {t : FlatHashMap Val} {k : Key} {j : Nat} :
    hitF t k j = true ↔ (keyAt t (probe t k j) = some EMPTY ∨
      keyAt t (probe t k j) = some k) := by
  unfold hitF
  simp only [decide_eq_true_eq]

/-- After the first stopping slot of `upsert` received `(k, v)`, `find k` returns
that slot. -/
theorem find_setSlot_first {t : FlatHashMap Val} (h : WF t) {k : Key} (hk : k ≠ EMPTY)
    {m : Nat} (hm : m ≤ MAX_PROBES) (hfirst : ∀ i, i < m → hitU t k i = false)
    (hhit : hitU t k m = true) (v : Val) {sz : Nat} (hsz : sz < 2 ^ 64) :
    find (setSlot t (probe t k m) { key := k, val := v } sz) k = .ok (some (probe t k m)) := by
  have hlen : probe t k m < t.entries_.length := by rw [h.len]; exact h.probe_lt k m
  have hwf := h.setSlot (probe t k m) { key := k, val := v } hsz
  have hkm : keyAt (setSlot t (probe t k m) { key := k, val := v } sz) (probe t k m) = some k := by
    rw [keyAt_setSlot t _ _ _ hlen]
    simp
  have hf : firstHit (hitF (setSlot t (probe t k m) { key := k, val := v } sz) k)
      (MAX_PROBES + 1) 0 = some m := by
    rw [firstHit_eq_some]
    refine ⟨Nat.zero_le _, by omega, ?_, ?_⟩
    · rw [hitF_true_iff, probe_setSlot]
      exact Or.inr hkm
    · intro i _ hi
      have hne : probe t k i ≠ probe t k m :=
        probe_ne_of_hit_ne (p := hitU) (hitU_congr t k) (hfirst i hi) hhit
      have hu := hitU_false_iff.mp (hfirst i hi)
      rw [hitF_false_iff, probe_setSlot, keyAt_setSlot t _ _ _ hlen]
      simp only [hne, if_false]
      exact ⟨hu.1, hu.2.2⟩
  rw [find_eq hwf, hf]
  simp only [probe_setSlot, hkm]
  have : ¬ (some k = some EMPTY) := fun h2 => hk (Option.some.inj h2)
  simp only [this, if_false]

/-- What `upsert` does when some slot among the first `MAX_PROBES + 1` of the probe
sequence stops it: the first such slot `m` receives `(k, v)`. -/
theorem upsert_of_first {t : FlatHashMap Val} (h : WF t) {k : Key} (v : Val)
    {m : Nat} (hm : m ≤ MAX_PROBES) (hfirst : ∀ i, i < m → hitU t k i = false)
    (hhit : hitU t k m = true) :
    ∃ b sz, sz < 2 ^ 64 ∧
      upsert t k v = .ok (b, setSlot t (probe t k m) { key := k, val := v } sz) ∧
      (b = true ↔ (keyAt t (probe t k m) = some EMPTY ∨
        keyAt t (probe t k m) = some TOMBSTONE)) ∧
      sz = if b then (t.size_ + 1) % 2 ^ 64 else t.size_ := by
  have hf : firstHit (hitU t k) (MAX_PROBES + 1) 0 = some m := by
    rw [firstHit_eq_some]
    exact ⟨Nat.zero_le _, by omega, hhit, fun i _ hi => hfirst i hi⟩
  rw [upsert_eq h, hf]
  by_cases hc : keyAt t (probe t k m) = some EMPTY ∨ keyAt t (probe t k m) = some TOMBSTONE
  · refine ⟨true, (t.size_ + 1) % 2 ^ 64, Nat.mod_lt _ (by decide), ?_, ?_, ?_⟩
    · simp only [hc, if_true]
    · simp only [hc]
    · simp
  · refine ⟨false, t.size_, h.size_lt, ?_, ?_, ?_⟩
    · simp only [hc, if_false]
    · simp only [hc]
      simp
    · simp

/-- What `upsert` does when none of the first `MAX_PROBES + 1` slots stops it. -/
theorem upsert_of_none {t : FlatHashMap Val} (h : WF t) {k : Key} (v : Val)
    (hnone : ∀ i, i ≤ MAX_PROBES → hitU t k i = false) :
    upsert t k v = .ok (false, t) := by
  have hf : firstHit (hitU t k) (MAX_PROBES + 1) 0 = none := by
    rw [firstHit_eq_none]
    intro i _ hi
    exact hnone i (by omega)
  rw [upsert_eq h, hf]

/-! ## Sample tables -/

theorem reachable_emptyOne : Reachable emptyOne :=
  Reachable.construct zeroOrder 1 emptyOne (by decide) (by decide)

theorem reachable_fullOne : Reachable fullOne :=
  Reachable.upsert emptyOne 2 (sampleOrder 2) true fullOne reachable_emptyOne
    ⟨by decide, by decide⟩ (by decide)

/-! ## C1: round trip -/

/-- C1 fails as stated: in the reachable table of capacity 1 that holds key 2,
`upsert(3, v)` is rejected and `find(3)` then returns `nullptr`. -/
theorem roundtrip_fails_when_rejected :
    Reachable fullOne ∧ nonSentinel 3 ∧ ¬ RoundTrip fullOne 3 (sampleOrder 3) := by
  refine ⟨reachable_fullOne, ⟨by decide, by decide⟩, ?_⟩
  rintro ⟨b, t', i, hu, hf, _⟩
  have h1 : upsert fullOne 3 (sampleOrder 3) = .ok (false, fullOne) := by decide
  rw [h1] at hu
  cases hu
  have h2 : find fullOne 3 = .ok none := by decide
  rw [h2] at hf
  cases hf

/-- Round trip on a well-formed table in which `upsert(k, _)` finds a slot to stop at. -/
theorem roundTrip_of_accepts {t : FlatHashMap Val} (h : WF t) {k : Key}
    (hk : nonSentinel k) (v : Val) (hacc : Accepts t k) : RoundTrip t k v := by
  rcases firstHit_cases (hitU t k) (MAX_PROBES + 1) with ⟨_, hnone⟩ | ⟨m, _, hm, hhit, hfirst⟩
  · obtain ⟨j, hj, hjk⟩ := hacc
    have := hnone j (by omega)
    rw [hitU_true_iff.mpr hjk] at this
    cases this
  · have hm2 : m ≤ MAX_PROBES := by omega
    obtain ⟨b, sz, hsz, hu, _, _⟩ := upsert_of_first h v hm2 hfirst hhit
    refine ⟨b, _, probe t k m, hu, find_setSlot_first h hk.1 hm2 hfirst hhit v hsz, ?_⟩
    have hlen : probe t k m < t.entries_.length := by rw [h.len]; exact h.probe_lt k m
    exact deref_setSlot_self t _ _ hlen

/-- A call that returns `true`, or a key that `find` already returns, means that the
loop of `upsert` finds a slot to stop at. -/
theorem accepts_of_notRejected {t : FlatHashMap Val} (h : WF t) {k : Key} {v : Val}
    (hnr : NotRejected t k v) : Accepts t k := by
  rcases hnr with ⟨t', hu⟩ | ⟨i, hf⟩
  · rw [upsert_eq h] at hu
    cases hfh : firstHit (hitU t k) (MAX_PROBES + 1) 0 with
    | none =>
      rw [hfh] at hu
      cases hu
    | some m =>
      obtain ⟨_, hm, hhit, _⟩ := firstHit_eq_some.mp hfh
      exact ⟨m, by omega, hitU_true_iff.mp hhit⟩
  · rw [find_eq h] at hf
    cases hfh : firstHit (hitF t k) (MAX_PROBES + 1) 0 with
    | none =>
      rw [hfh] at hf
      cases hf
    | some m =>
      obtain ⟨_, hm, hhit, _⟩ := firstHit_eq_some.mp hfh
      refine ⟨m, by omega, ?_⟩
      rcases hitF_true_iff.mp hhit with h1 | h1
      · exact Or.inl h1
      · exact Or.inr (Or.inr h1)

/-- C1 (amended): in every reachable table, for every non-sentinel key `k` and value
`v`, if `upsert(k, v)` is not rejected (it returns `true`, or `find(k)` was already
non-null before the call), then `upsert(k, v)` followed by `find(k)` yields a non-null
result whose value is `v`. -/
theorem roundtrip_when_accepted {t : FlatHashMap Val} (hr : Reachable t) {k : Key}
    (hk : nonSentinel k) (v : Val) (hnr : NotRejected t k v) : RoundTrip t k v :=
  roundTrip_of_accepts hr.wf hk v (accepts_of_notRejected hr.wf hnr)

theorem roundtrip_when_accepted_witness :
    Reachable emptyOne ∧ nonSentinel 2 ∧ NotRejected emptyOne 2 (sampleOrder 2) ∧
    Reachable fullOne ∧ NotRejected fullOne 2 (sampleOrder 22) ∧
      RoundTrip emptyOne 2 (sampleOrder 2) ∧ RoundTrip fullOne 2 (sampleOrder 22) :=
  have h1 : NotRejected emptyOne 2 (sampleOrder 2) := Or.inl ⟨fullOne, by decide⟩
  have h2 : NotRejected fullOne 2 (sampleOrder 22) := Or.inr ⟨0, by decide⟩
  ⟨reachable_emptyOne, ⟨by decide, by decide⟩, h1, reachable_fullOne, h2,
    roundtrip_when_accepted reachable_emptyOne ⟨by decide, by decide⟩ (sampleOrder 2) h1,
    roundtrip_when_accepted reachable_fullOne ⟨by decide, by decide⟩ (sampleOrder 22) h2⟩

theorem Trace.reachable_step {s s' : Trace Val} {op : Op Val} (hr : Reachable s.table)
    (hk : nonSentinel op.key) (h : s.step op = .ok s') : Reachable s'.table := by
  cases op with
  | upsert k v =>
    simp only [Trace.step] at h
    split at h <;> try cases h
    next b t' hu => exact Reachable.upsert _ k v b t' hr hk hu
  | find k =>
    simp only [Trace.step] at h
    split at h <;> try cases h
    exact hr
  | erase k =>
    simp only [Trace.step] at h
    split at h <;> try cases h
    next b t' hu => exact Reachable.erase _ k b t' hr hk hu

theorem Trace.reachable_run : ∀ (ops : List (Op Val)) {s s' : Trace Val},
    Reachable s.table → (∀ op, op ∈ ops → nonSentinel op.key) → s.run ops = .ok s' →
    Reachable s'.table
  | [], s, s', hr, _, h => by
    simp only [Trace.run] at h
    cases h
    exact hr
  | op :: ops, s, s', hr, hk, h => by
    simp only [Trace.run] at h
    split at h <;> try cases h
    next s1 hs =>
      exact Trace.reachable_run ops
        (Trace.reachable_step hr (hk op (List.mem_cons_self _ _)) hs)
        (fun o ho => hk o (List.mem_cons_of_mem _ ho)) h

theorem reachable_emptyTwo : Reachable emptyTwo :=
  Reachable.construct zeroOrder 2 emptyTwo (by decide) (by decide)

theorem reachable_tombTwo : Reachable tombTwo := by
  have h : (Trace.mk emptyTwo 0 0).run
      [.upsert 2 (sampleOrder 2), .upsert 3 (sampleOrder 3), .erase 2] =
      .ok (Trace.mk tombTwo 2 1) := by decide
  refine Trace.reachable_run _ (s := Trace.mk emptyTwo 0 0) reachable_emptyTwo ?_ h
  intro op hop
  simp only [List.mem_cons, List.mem_singleton, List.not_mem_nil, or_false] at hop
  rcases hop with rfl | rfl | rfl <;> exact ⟨by decide, by decide⟩

theorem reachable_dupTwo : Reachable dupTwo :=
  Reachable.upsert tombTwo 3 (sampleOrder 33) true dupTwo reachable_tombTwo
    ⟨by decide, by decide⟩ (by decide)

/-! ## C2: deletion visibility -/

/-- C2 at its failing input.  In the table of capacity 2, after `upsert(2, _)`,
`upsert(3, _)`, `erase(2)`, `upsert(3, _)` key 3 is held by both slots; `erase(3)`
returns `true` and turns slot 0 into a tombstone, and `find(3)` afterwards still
returns slot 1 with the value of the first insertion. -/
theorem erase_leaves_duplicate_visible :
    Reachable dupTwo ∧ nonSentinel 3 ∧
    ∃ t', erase dupTwo 3 = .ok (true, t') ∧ find t' 3 = .ok (some 1) ∧
      deref t' 1 = some (sampleOrder 3) :=
  ⟨reachable_dupTwo, ⟨by decide, by decide⟩,
    ⟨{ entries_ := [{ key := 1, val := sampleOrder 33 }, { key := 3, val := sampleOrder 3 }],
       cap_ := 2, mask_ := 1, size_ := 1 }, by decide, by decide, by decide⟩⟩

/-! ## C3: idempotent update -/

/-- A second `upsert` of the key that the first one wrote stops at the same slot. -/
theorem upsert_setSlot_first {t : FlatHashMap Val} (h : WF t) {k : Key} (hk : nonSentinel k)
    {m : Nat} (hm : m ≤ MAX_PROBES) (hfirst : ∀ i, i < m → hitU t k i = false)
    (hhit : hitU t k m = true) (v v2 : Val) {sz : Nat} (hsz : sz < 2 ^ 64) :
    upsert (setSlot t (probe t k m) { key := k, val := v } sz) k v2 =
      .ok (false, setSlot t (probe t k m) { key := k, val := v2 } sz) := by
  have hlen : probe t k m < t.entries_.length := by rw [h.len]; exact h.probe_lt k m
  have hwf := h.setSlot (probe t k m) { key := k, val := v } hsz
  have hkm : keyAt (setSlot t (probe t k m) { key := k, val := v } sz) (probe t k m) = some k := by
    rw [keyAt_setSlot t _ _ _ hlen]
    simp
  have hfirst2 : ∀ i, i < m →
      hitU (setSlot t (probe t k m) { key := k, val := v } sz) k i = false := by
    intro i hi
    have hne : probe t k i ≠ probe t k m :=
      probe_ne_of_hit_ne (p := hitU) (hitU_congr t k) (hfirst i hi) hhit
    have hu := hitU_false_iff.mp (hfirst i hi)
    rw [hitU_false_iff, probe_setSlot, keyAt_setSlot t _ _ _ hlen]
    simp only [hne, if_false]
    exact hu
  have hhit2 : hitU (setSlot t (probe t k m) { key := k, val := v } sz) k m = true := by
    rw [hitU_true_iff, probe_setSlot]
    exact Or.inr (Or.inr hkm)
  obtain ⟨b, sz2, _, hu, hb, hsz2⟩ := upsert_of_first hwf v2 hm hfirst2 hhit2
  have hbf : b = false := by
    cases b with
    | false => rfl
    | true =>
      have := hb.mp rfl
      rw [probe_setSlot, hkm] at this
      rcases this with h1 | h1
      · exact absurd (Option.some.inj h1) hk.1
      · exact absurd (Option.some.inj h1) hk.2
  subst hbf
  rw [hu]
  simp only [Bool.false_eq_true, if_false] at hsz2
  subst hsz2
  rw [probe_setSlot]
  simp only [setSlot, List.set_set]

/-- C3 fails as stated, in two ways.  In the full table of capacity 1 both upserts
of key 3 are rejected and no slot holds it.  In the reachable table `tombTwo`, where
key 3 sits behind a tombstone, the first upsert stores key 3 a second time. -/
theorem idempotent_update_fails :
    (Reachable fullOne ∧ nonSentinel 3 ∧
      ¬ IdempotentUpdate fullOne 3 (sampleOrder 31) (sampleOrder 32)) ∧
    (Reachable tombTwo ∧ nonSentinel 3 ∧
      ¬ IdempotentUpdate tombTwo 3 (sampleOrder 31) (sampleOrder 32)) := by
  refine ⟨⟨reachable_fullOne, ⟨by decide, by decide⟩, ?_⟩,
    ⟨reachable_tombTwo, ⟨by decide, by decide⟩, ?_⟩⟩
  · rintro ⟨b1, t1, b2, t2, hu1, hu2, ⟨i, hi, _⟩, _⟩
    have h1 : upsert fullOne 3 (sampleOrder 31) = .ok (false, fullOne) := by decide
    rw [h1] at hu1
    cases hu1
    have h2 : upsert fullOne 3 (sampleOrder 32) = .ok (false, fullOne) := by decide
    rw [h2] at hu2
    cases hu2
    have h3 : ∀ e, e ∈ fullOne.entries_ → e.key ≠ 3 := by decide
    exact h3 _ (List.getElem?_mem hi) rfl
  · rintro ⟨b1, t1, b2, t2, hu1, hu2, ⟨i, _, hi⟩, _⟩
    have h1 : upsert tombTwo 3 (sampleOrder 31) = .ok (true,
        { entries_ := [{ key := 3, val := sampleOrder 31 }, { key := 3, val := sampleOrder 3 }],
          cap_ := 2, mask_ := 1, size_ := 2 }) := by decide
    rw [h1] at hu1
    cases hu1
    have h2 : upsert
        { entries_ := [{ key := 3, val := sampleOrder 31 }, { key := 3, val := sampleOrder 3 }],
          cap_ := 2, mask_ := 1, size_ := 2 } 3 (sampleOrder 32) = .ok (false,
        { entries_ := [{ key := 3, val := sampleOrder 32 }, { key := 3, val := sampleOrder 3 }],
          cap_ := 2, mask_ := 1, size_ := 2 }) := by decide
    rw [h2] at hu2
    cases hu2
    have e0 := hi 0 (by decide)
    have e1 := hi 1 (by decide)
    omega

/-- Two upserts of `k` on a well-formed table in which `upsert(k, _)` finds a slot to
stop at and no other slot holds `k`. -/
theorem idempotentUpdate_of_accepts {t : FlatHashMap Val} (h : WF t) {k : Key}
    (hk : nonSentinel k) (v1 v2 : Val) (hacc : Accepts t k) (honly : OnlyAtFirstStop t k) :
    IdempotentUpdate t k v1 v2 := by
  rcases firstHit_cases (hitU t k) (MAX_PROBES + 1) with ⟨_, hnone⟩ | ⟨m, _, hm, hhit, hfirst⟩
  · obtain ⟨j, hj, hjk⟩ := hacc
    have := hnone j (by omega)
    rw [hitU_true_iff.mpr hjk] at this
    cases this
  · have hm2 : m ≤ MAX_PROBES := by omega
    have hlen : probe t k m < t.entries_.length := by rw [h.len]; exact h.probe_lt k m
    obtain ⟨b, sz, hsz, hu, _, _⟩ := upsert_of_first h v1 hm2 hfirst hhit
    refine ⟨b, _, false, _, hu, upsert_setSlot_first h hk hm2 hfirst hhit v1 v2 hsz,
      ⟨probe t k m, ?_, ?_⟩, rfl⟩
    · simp [setSlot, List.getElem?_set, hlen]
    · intro j hj
      by_contra hne
      rw [keyAt_setSlot t _ _ _ hlen] at hj
      simp only [hne, if_false] at hj
      obtain ⟨j', hj', hpj, hbefore⟩ := honly j hj
      have hhit' : hitU t k j' = true := by
        rw [hitU_true_iff, hpj]
        exact Or.inr (Or.inr hj)
      have hjm : j' = m := by
        rcases Nat.lt_trichotomy j' m with hlt | heq | hgt
        · have := hfirst j' hlt
          rw [hhit'] at this
          cases this
        · exact heq
        · have := hbefore m hgt
          rw [hhit] at this
          cases this
      apply hne
      rw [← hpj, hjm]

/-- An upsert that inserts an absent key or updates the only slot of a key in place
stops at the only slot that may hold the key. -/
theorem onlyAtFirstStop_of_inPlace {t : FlatHashMap Val} (h : WF t) {k : Key}
    {v : Val} (hio : InsertsOrUpdatesInPlace t k v) :
    Accepts t k ∧ OnlyAtFirstStop t k := by
  rcases hio with ⟨habs, t1, hu⟩ | ⟨i, t1, hf, huniq, hu⟩
  · exact ⟨accepts_of_notRejected h (Or.inl ⟨t1, hu⟩), fun j hj => absurd ⟨j, hj⟩ habs⟩
  · refine ⟨accepts_of_notRejected (v := v) h (Or.inr ⟨i, hf⟩), ?_⟩
    rw [find_eq h] at hf
    cases hfh : firstHit (hitF t k) (MAX_PROBES + 1) 0 with
    | none =>
      rw [hfh] at hf
      cases hf
    | some m =>
      rw [hfh] at hf
      obtain ⟨_, hm, hhit, hfirst⟩ := firstHit_eq_some.mp hfh
      have hnE : ¬ keyAt t (probe t k m) = some EMPTY := by
        intro hE
        simp only [hE, if_true] at hf
        cases hf
      simp only [hnE, if_false] at hf
      have him : probe t k m = i := by
        cases hf
        rfl
      have hkm : keyAt t (probe t k m) = some k := by
        rcases hitF_true_iff.mp hhit with h1 | h1
        · exact absurd h1 hnE
        · exact h1
      have hUm : hitU t k m = true := hitU_true_iff.mpr (Or.inr (Or.inr hkm))
      rw [upsert_eq h] at hu
      cases hfu : firstHit (hitU t k) (MAX_PROBES + 1) 0 with
      | none =>
        have := firstHit_eq_none.mp hfu m (Nat.zero_le m) (by omega)
        rw [hUm] at this
        cases this
      | some m' =>
        rw [hfu] at hu
        obtain ⟨_, hm', hhit', hfirst'⟩ := firstHit_eq_some.mp hfu
        have hnot : ¬ (keyAt t (probe t k m') = some EMPTY ∨
            keyAt t (probe t k m') = some TOMBSTONE) := by
          intro hc
          simp only [hc, if_true] at hu
          cases hu
        have hkm' : keyAt t (probe t k m') = some k := by
          rcases hitU_true_iff.mp hhit' with h1 | h1 | h1
          · exact absurd (Or.inl h1) hnot
          · exact absurd (Or.inr h1) hnot
          · exact h1
        have hmm : m' = m := by
          rcases Nat.lt_trichotomy m' m with hlt | heq | hgt
          · have := hfirst m' (Nat.zero_le m') hlt
            rw [hitF_true_iff.mpr (Or.inr hkm')] at this
            cases this
          · exact heq
          · have := hfirst' m (Nat.zero_le m) hgt
            rw [hUm] at this
            cases this
        intro j hj
        have hji : j = i := huniq j hj
        refine ⟨m, by omega, by rw [him, hji], ?_⟩
        intro j' hj'
        exact hfirst' j' (Nat.zero_le j') (by omega)

/-- C3 (amended): in every reachable table, for every non-sentinel key `k` and values
`v1`, `v2`, if `upsert(k, v1)` inserts a key that no slot holds (it returns `true`) or
updates in place the only slot that holds `k` (`find(k)` returns that slot and the call
returns `false`), then after `upsert(k, v1)` and `upsert(k, v2)` exactly one slot holds
`k`, its value is `v2`, and `size()` is unchanged by the second call. -/
theorem idempotent_update_when_accepted {t : FlatHashMap Val} (hr : Reachable t) {k : Key}
    (hk : nonSentinel k) (v1 v2 : Val) (hio : InsertsOrUpdatesInPlace t k v1) :
    IdempotentUpdate t k v1 v2 :=
  idempotentUpdate_of_accepts hr.wf hk v1 v2 (onlyAtFirstStop_of_inPlace hr.wf hio).1
    (onlyAtFirstStop_of_inPlace hr.wf hio).2

theorem idempotent_update_when_accepted_witness :
    Reachable emptyOne ∧ Reachable fullOne ∧ nonSentinel 2 ∧
    InsertsOrUpdatesInPlace emptyOne 2 (sampleOrder 21) ∧
    InsertsOrUpdatesInPlace fullOne 2 (sampleOrder 21) ∧
    IdempotentUpdate emptyOne 2 (sampleOrder 21) (sampleOrder 22) ∧
    IdempotentUpdate fullOne 2 (sampleOrder 21) (sampleOrder 22) :=
  have habs : ¬ present emptyOne 2 := by
    rintro ⟨i, hi⟩
    have : ∀ e, e ∈ emptyOne.entries_ → e.key ≠ 2 := by decide
    unfold keyAt at hi
    cases he : emptyOne.entries_[i]? with
    | none => rw [he] at hi; cases hi
    | some e =>
      rw [he] at hi
      exact absurd (Option.some.inj hi) (this e (List.getElem?_mem he))
  have huniq : ∀ j, keyAt fullOne j = some 2 → j = 0 := by
    intro j hj
    unfold keyAt at hj
    cases j with
    | zero => rfl
    | succ j => cases hj
  have h1 : InsertsOrUpdatesInPlace emptyOne 2 (sampleOrder 21) :=
    Or.inl ⟨habs, _, (by decide : upsert emptyOne 2 (sampleOrder 21) =
      .ok (true, setSlot emptyOne 0 { key := 2, val := sampleOrder 21 } 1))⟩
  have h2 : InsertsOrUpdatesInPlace fullOne 2 (sampleOrder 21) :=
    Or.inr ⟨0, _, by decide, huniq, (by decide : upsert fullOne 2 (sampleOrder 21) =
      .ok (false, setSlot fullOne 0 { key := 2, val := sampleOrder 21 } 1))⟩
  ⟨reachable_emptyOne, reachable_fullOne, ⟨by decide, by decide⟩, h1, h2,
    idempotent_update_when_accepted reachable_emptyOne ⟨by decide, by decide⟩
      (sampleOrder 21) (sampleOrder 22) h1,
    idempotent_update_when_accepted reachable_fullOne ⟨by decide, by decide⟩
      (sampleOrder 21) (sampleOrder 22) h2⟩

/-! ## C4: the probe budget -/

theorem firstHit_congr {p q : Nat → Bool} : ∀ (n j : Nat),
    (∀ i, j ≤ i → i < j + n → p i = q i) → firstHit p n j = firstHit q n j
  | 0, _, _ => rfl
  | n + 1, j, h => by
    unfold firstHit
    rw [h j (Nat.le_refl j) (by omega),
      firstHit_congr n (j + 1) (fun i h1 h2 => h i (by omega) (by omega))]

theorem probe_eq_of_cap {t t' : FlatHashMap Val} (h : WF t) (h' : WF t')
    (hcap : t'.cap_ = t.cap_) (k : Key) (j : Nat) : probe t' k j = probe t k j := by
  unfold probe bucket
  rw [h'.mask_eq, h.mask_eq, hcap]

/-- The results of `find`, `upsert` and `erase` for key `k` are determined by the keys
in the first `MAX_PROBES + 1` slots of the probe sequence of `k`: two tables of the
same capacity that agree on these slots give the same results. -/
theorem results_determined_by_budget {t t' : FlatHashMap Val} (h : WF t) (h' : WF t')
    (hcap : t'.cap_ = t.cap_) (k : Key)
    (hagree : ∀ j, j ≤ MAX_PROBES → keyAt t' (probe t k j) = keyAt t (probe t k j)) :
    find t' k = find t k ∧
    (∀ v, ∃ b u u', upsert t k v = .ok (b, u) ∧ upsert t' k v = .ok (b, u')) ∧
    (∃ b u u', erase t k = .ok (b, u) ∧ erase t' k = .ok (b, u')) := by
  have hp : ∀ j, probe t' k j = probe t k j := probe_eq_of_cap h h' hcap k
  have hF : firstHit (hitF t' k) (MAX_PROBES + 1) 0 = firstHit (hitF t k) (MAX_PROBES + 1) 0 := by
    apply firstHit_congr
    intro i _ hi
    unfold hitF
    rw [hp, hagree i (by omega)]
  have hU : firstHit (hitU t' k) (MAX_PROBES + 1) 0 = firstHit (hitU t k) (MAX_PROBES + 1) 0 := by
    apply firstHit_congr
    intro i _ hi
    unfold hitU
    rw [hp, hagree i (by omega)]
  refine ⟨?_, ?_, ?_⟩
  · rw [find_eq h', find_eq h, hF]
    cases hf : firstHit (hitF t k) (MAX_PROBES + 1) 0 with
    | none => rfl
    | some m =>
      have hm := (firstHit_eq_some.mp hf).2.1
      simp only [hp, hagree m (by omega)]
  · intro v
    rw [upsert_eq h', upsert_eq h, hU]
    cases hf : firstHit (hitU t k) (MAX_PROBES + 1) 0 with
    | none => exact ⟨false, t, t', rfl, rfl⟩
    | some m =>
      have hm := (firstHit_eq_some.mp hf).2.1
      simp only [hp, hagree m (by omega)]
      split
      · exact ⟨true, _, _, rfl, rfl⟩
      · exact ⟨false, _, _, rfl, rfl⟩
  · rw [erase_eq h', erase_eq h, hF]
    cases hf : firstHit (hitF t k) (MAX_PROBES + 1) 0 with
    | none => exact ⟨false, t, t', rfl, rfl⟩
    | some m =>
      have hm := (firstHit_eq_some.mp hf).2.1
      simp only [hp, hagree m (by omega)]
      split
      · exact ⟨false, _, _, rfl, rfl⟩
      · exact ⟨true, _, _, rfl, rfl⟩

/-- C4 at its failing input.  In a table of capacity 256 the 128 keys of `chainKeys`
are upserted; they fill slots 0 to 127, the first 128 slots of the probe sequence of
key 143 (home slot 0).  `upsert(143, _)` then examines these 128 slots and a 129th
one, slot 128, and inserts there; `find(143)` returns `nullptr` before and slot 128
after, although the two tables agree on the first 128 slots of the probe sequence. -/
theorem probe_budget_examines_129_slots :
    construct zeroOrder 256 = .ok fresh256 ∧
    (Trace.mk fresh256 0 0).run chainOps = .ok (Trace.mk chainTable 128 0) ∧
    upsert chainTable 143 (sampleOrder 143) =
      .ok (true, setSlot chainTable 128 { key := 143, val := sampleOrder 143 } 129) ∧
    (∀ j, j < 128 → probe chainTable 143 j = j) ∧
    probe chainTable 143 128 = 128 ∧
    (∀ j, j < 128 →
      (setSlot chainTable 128 { key := 143, val := sampleOrder 143 } 129).entries_[j]? =
        chainTable.entries_[j]?) ∧
    find chainTable 143 = .ok none ∧
    find (setSlot chainTable 128 { key := 143, val := sampleOrder 143 } 129) 143 =
      .ok (some 128) :=
  ⟨by decide, by decide!, by decide!, by decide, by decide, by decide!, by decide!, by decide!⟩

/-! ## C5: a rejected upsert changes nothing -/

/-- C5: for every table, key `k` and value `v`, if every slot that `upsert(k, v)`
examines (the first `MAX_PROBES + 1` slots of the probe sequence of `k`) is occupied
by a key other than `k`, then `upsert(k, v)` returns `false` and the table it leaves
is the table it was given: every slot and `size()` are as before. -/
theorem upsert_rejected_unchanged {t : FlatHashMap Val} (h : WF t) (k : Key) (v : Val)
    (hocc : ∀ j, j ≤ MAX_PROBES → ∃ k', keyAt t (probe t k j) = some k' ∧
      k' ≠ EMPTY ∧ k' ≠ TOMBSTONE ∧ k' ≠ k) :
    upsert t k v = .ok (false, t) := by
  apply upsert_of_none h
  intro i hi
  obtain ⟨k', hk', h1, h2, h3⟩ := hocc i hi
  rw [hitU_false_iff, hk']
  exact ⟨fun h4 => h1 (Option.some.inj h4), fun h4 => h2 (Option.some.inj h4),
    fun h4 => h3 (Option.some.inj h4)⟩

theorem upsert_rejected_unchanged_witness :
    WF fullOne ∧
    (∀ j, j ≤ MAX_PROBES → ∃ k', keyAt fullOne (probe fullOne 3 j) = some k' ∧
      k' ≠ EMPTY ∧ k' ≠ TOMBSTONE ∧ k' ≠ 3) ∧
    upsert fullOne 3 (sampleOrder 3) = .ok (false, fullOne) :=
  have hocc : ∀ j, j ≤ MAX_PROBES → ∃ k', keyAt fullOne (probe fullOne 3 j) = some k' ∧
      k' ≠ EMPTY ∧ k' ≠ TOMBSTONE ∧ k' ≠ 3 := by
    intro j _
    refine ⟨2, ?_, by decide, by decide, by decide⟩
    have : probe fullOne 3 j = 0 := Nat.mod_one _
    rw [this]
    rfl
  ⟨reachable_fullOne.wf, hocc,
    upsert_rejected_unchanged reachable_fullOne.wf 3 (sampleOrder 3) hocc⟩

/-! ## C8: erase leaves the other keys where they are -/

theorem reachable_eightTable : Reachable eightTable := by
  have h0 : Reachable emptyEight :=
    Reachable.construct zeroOrder 8 emptyEight (by decide) (by decide)
  have h : (Trace.mk emptyEight 0 0).run
      [.upsert 2 (sampleOrder 2), .upsert 10 (sampleOrder 10), .upsert 18 (sampleOrder 18)] =
      .ok (Trace.mk eightTable 3 0) := by decide
  refine Trace.reachable_run _ (s := Trace.mk emptyEight 0 0) h0 ?_ h
  intro op hop
  simp only [List.mem_cons, List.mem_singleton, List.not_mem_nil, or_false] at hop
  rcases hop with rfl | rfl | rfl <;> exact ⟨by decide, by decide⟩

/-- Replacing a key that is neither `EMPTY` nor `k'` by another such key does not
change where the loop of `find(k')` stops. -/
theorem hitF_setSlot_other {t : FlatHashMap Val} {i : Nat} (hi : i < t.entries_.length)
    {k0 : Key} (h0 : keyAt t i = some k0) (e : Entry Val) (sz : Nat) {k' : Key}
    (hk0 : k0 ≠ EMPTY) (hk0' : k0 ≠ k') (he : e.key ≠ EMPTY) (he' : e.key ≠ k') (j : Nat) :
    hitF (setSlot t i e sz) k' j = hitF t k' j := by
  unfold hitF
  rw [probe_setSlot, keyAt_setSlot t e sz _ hi]
  by_cases hj : probe t k' j = i
  · simp only [hj, if_true, h0]
    have a1 : ¬ (some e.key = some EMPTY) := fun h => he (Option.some.inj h)
    have a2 : ¬ (some e.key = some k') := fun h => he' (Option.some.inj h)
    have a3 : ¬ (some k0 = some EMPTY) := fun h => hk0 (Option.some.inj h)
    have a4 : ¬ (some k0 = some k') := fun h => hk0' (Option.some.inj h)
    simp only [a1, a2, a3, a4, or_self]
  · simp only [hj, if_false]

theorem find_setSlot_other {t : FlatHashMap Val} (h : WF t) {i : Nat} (hi : i < t.entries_.length)
    {k0 : Key} (h0 : keyAt t i = some k0) (e : Entry Val) {sz : Nat} (hsz : sz < 2 ^ 64)
    {k' : Key} (hk0 : k0 ≠ EMPTY) (hk0' : k0 ≠ k') (he : e.key ≠ EMPTY) (he' : e.key ≠ k') :
    find (setSlot t i e sz) k' = find t k' := by
  have hfun : hitF (setSlot t i e sz) k' = hitF t k' :=
    funext (hitF_setSlot_other hi h0 e sz hk0 hk0' he he')
  rw [find_eq (h.setSlot i e hsz), find_eq h, hfun]
  cases hf : firstHit (hitF t k') (MAX_PROBES + 1) 0 with
  | none => rfl
  | some m =>
    simp only [probe_setSlot]
    rw [keyAt_setSlot t e sz _ hi]
    by_cases hj : probe t k' m = i
    · have a1 : ¬ (some e.key = some EMPTY) := fun h => he (Option.some.inj h)
      have a3 : ¬ (some k0 = some EMPTY) := fun h => hk0 (Option.some.inj h)
      simp only [hj, if_true, h0, a1, a3, if_false]
    · simp only [hj, if_false]

/-- What `erase` does when it returns `true`: the loop stopped at a slot that holds
`k`, and that slot became a tombstone with its value kept. -/
theorem erase_true_inv {t t' : FlatHashMap Val} (h : WF t) {k : Key}
    (he : erase t k = .ok (true, t')) :
    ∃ m e, m ≤ MAX_PROBES ∧ (∀ i, i < m → hitF t k i = false) ∧
      t.entries_[probe t k m]? = some e ∧ e.key = k ∧ k ≠ EMPTY ∧
      t' = setSlot t (probe t k m) { key := TOMBSTONE, val := e.val }
        ((t.size_ + 2 ^ 64 - 1) % 2 ^ 64) := by
  rw [erase_eq h] at he
  cases hf : firstHit (hitF t k) (MAX_PROBES + 1) 0 with
  | none =>
    rw [hf] at he
    cases he
  | some m =>
    rw [hf] at he
    obtain ⟨_, hm, hhit, hfirst⟩ := firstHit_eq_some.mp hf
    by_cases hE : keyAt t (probe t k m) = some EMPTY
    · simp only [hE, if_true] at he
      cases he
    · simp only [hE, if_false] at he
      obtain ⟨e, hent⟩ := h.entry_at (h.probe_lt k m)
      have hk := keyAt_of_entry hent
      have hek : e.key = k := by
        rcases hitF_true_iff.mp hhit with h1 | h1
        · exact absurd h1 hE
        · rw [hk] at h1
          exact Option.some.inj h1
      refine ⟨m, e, by omega, fun i hi => hfirst i (Nat.zero_le i) hi, hent, hek, ?_, ?_⟩
      · intro hk0
        apply hE
        rw [hk, hek, hk0]
      · rw [eraseAt_eq hent] at he
        cases he
        rfl

/-- Erase always returns on a well-formed table. -/
theorem erase_returns {t : FlatHashMap Val} (h : WF t) (k : Key) :
    ∃ b t', erase t k = .ok (b, t') := by
  rw [erase_eq h]
  split
  · exact ⟨_, _, rfl⟩
  · split
    · exact ⟨_, _, rfl⟩
    · exact ⟨_, _, rfl⟩

/-- C8: for every table and every pair of distinct non-sentinel keys `k` and `k'`,
`erase(k)` returns, and `find(k')` gives the same result after it as before: the same
slot with the same value, or not-found both times. -/
theorem erase_keeps_other_keys {t : FlatHashMap Val} (h : WF t) {k k' : Key}
    (hk : nonSentinel k) (hk' : nonSentinel k') (hne : k ≠ k') :
    ∃ b t', erase t k = .ok (b, t') ∧ find t' k' = find t k' ∧
      findEntry t' k' = findEntry t k' := by
  obtain ⟨b, t', he⟩ := erase_returns h k
  refine ⟨b, t', he, ?_⟩
  cases b with
  | false =>
    have : t' = t := by
      rw [erase_eq h] at he
      split at he
      · cases he; rfl
      · split at he
        · cases he; rfl
        · cases he
    subst this
    exact ⟨rfl, rfl⟩
  | true =>
    obtain ⟨m, e, _, _, hent, hek, _, ht'⟩ := erase_true_inv h he
    have hlen : probe t k m < t.entries_.length := by rw [h.len]; exact h.probe_lt k m
    have hkey : keyAt t (probe t k m) = some k := by rw [keyAt_of_entry hent, hek]
    have hfind : find t' k' = find t k' := by
      rw [ht']
      exact find_setSlot_other h hlen hkey _ (Nat.mod_lt _ (by decide)) hk.1 hne
        (show TOMBSTONE ≠ EMPTY by decide) (fun h2 => hk'.2 h2.symm)
    refine ⟨hfind, ?_⟩
    unfold findEntry
    rw [hfind]
    cases hf : find t k' with
    | ok r =>
      cases r with
      | none => rfl
      | some i =>
        have hd : deref t' i = deref t i := by
          rw [ht']
          by_cases hi : i = probe t k m
          · subst hi
            rw [deref_setSlot_self t _ _ hlen]
            unfold deref
            rw [hent]
            rfl
          · exact deref_setSlot_of_ne t _ _ hi
        simp only [hd]
    | invalid_argument => rfl
    | out_of_range => rfl
    | out_of_fuel => rfl

/-- The scenario of C8: in the capacity-8 table holding keys 2, 10 and 18 (probe order
of home slot 1: key 10, key 2, key 18), erasing the middle key 2 leaves 18 and 10
where they were, with their values; so does erasing 10 or 18 for the other two. -/
theorem erase_keeps_other_keys_witness :
    Reachable eightTable ∧ nonSentinel 2 ∧ nonSentinel 18 ∧ 2 ≠ 18 ∧
    (∃ b t', erase eightTable 2 = .ok (b, t') ∧ find t' 18 = find eightTable 18 ∧
      findEntry t' 18 = findEntry eightTable 18) ∧
    findEntry eightTable 2 = .ok (some (2, some (sampleOrder 2))) ∧
    findEntry eightTable 10 = .ok (some (1, some (sampleOrder 10))) ∧
    findEntry eightTable 18 = .ok (some (3, some (sampleOrder 18))) ∧
    (∃ t', erase eightTable 2 = .ok (true, t') ∧
      findEntry t' 10 = findEntry eightTable 10 ∧ findEntry t' 18 = findEntry eightTable 18) ∧
    (∃ t', erase eightTable 10 = .ok (true, t') ∧
      findEntry t' 2 = findEntry eightTable 2 ∧ findEntry t' 18 = findEntry eightTable 18) ∧
    (∃ t', erase eightTable 18 = .ok (true, t') ∧
      findEntry t' 2 = findEntry eightTable 2 ∧ findEntry t' 10 = findEntry eightTable 10) :=
  ⟨reachable_eightTable, ⟨by decide, by decide⟩, ⟨by decide, by decide⟩, by decide,
    erase_keeps_other_keys reachable_eightTable.wf ⟨by decide, by decide⟩
      ⟨by decide, by decide⟩ (by decide),
    by decide, by decide, by decide,
    ⟨setSlot eightTable 2 { key := 1, val := sampleOrder 2 } 2, by decide, by decide, by decide⟩,
    ⟨setSlot eightTable 1 { key := 1, val := sampleOrder 10 } 2, by decide, by decide, by decide⟩,
    ⟨setSlot eightTable 3 { key := 1, val := sampleOrder 18 } 2, by decide, by decide, by decide⟩⟩

/-! ## C9: re-insertion after deletion -/

/-- C9: for every table and every non-sentinel key `k`, if `erase(k)` returns `true`
then `upsert(k, v)` on the resulting table returns `true` (inserted, not rejected) and
`find(k)` after it returns a slot whose value is `v`. -/
theorem reinsert_after_erase {t t1 : FlatHashMap Val} (h : WF t) {k : Key}
    (hk : nonSentinel k) (v : Val) (he : erase t k = .ok (true, t1)) :
    ∃ t2 i, upsert t1 k v = .ok (true, t2) ∧ find t2 k = .ok (some i) ∧
      deref t2 i = some v := by
  obtain ⟨m, e, hm, hfirstF, hent, hek, _, ht1⟩ := erase_true_inv h he
  have hlen : probe t k m < t.entries_.length := by rw [h.len]; exact h.probe_lt k m
  have h1 : WF t1 := h.of_erase he
  have hkey1 : ∀ j, keyAt t1 j = if j = probe t k m then some TOMBSTONE else keyAt t j := by
    intro j
    rw [ht1, keyAt_setSlot t _ _ _ hlen]
  have hprobe1 : ∀ j, probe t1 k j = probe t k j := by
    intro j
    rw [ht1, probe_setSlot]
  have hhitm : hitU t1 k m = true := by
    rw [hitU_true_iff, hprobe1, hkey1]
    simp
  rcases firstHit_cases (hitU t1 k) (MAX_PROBES + 1) with ⟨_, hnone⟩ | ⟨m', _, hm', hhit, hfirst⟩
  · have := hnone m (by omega)
    rw [hhitm] at this
    cases this
  · have hm2 : m' ≤ MAX_PROBES := by omega
    have hlen1 : probe t1 k m' < t1.entries_.length := by rw [h1.len]; exact h1.probe_lt k m'
    obtain ⟨b, sz, hsz, hu, hb, _⟩ := upsert_of_first h1 v hm2 hfirst hhit
    have hbt : b = true := by
      rw [hb]
      rcases hitU_true_iff.mp hhit with h2 | h2 | h2
      · exact Or.inl h2
      · exact Or.inr h2
      · exfalso
        rw [hprobe1, hkey1] at h2
        by_cases hpm : probe t k m' = probe t k m
        · simp only [hpm, if_true] at h2
          exact hk.2 (Option.some.inj h2).symm
        · simp only [hpm, if_false] at h2
          have hF : hitF t k m' = true := hitF_true_iff.mpr (Or.inr h2)
          rcases Nat.lt_trichotomy m' m with hlt | heq | hgt
          · have := hfirstF m' hlt
            rw [hF] at this
            cases this
          · exact hpm (by rw [heq])
          · have := hfirst m hgt
            rw [hhitm] at this
            cases this
    subst hbt
    exact ⟨_, probe t1 k m', hu, find_setSlot_first h1 hk.1 hm2 hfirst hhit v hsz,
      deref_setSlot_self t1 _ _ hlen1⟩

theorem reinsert_after_erase_witness :
    WF fullOne ∧ nonSentinel 2 ∧ erase fullOne 2 = .ok (true, tombOne) ∧
    ∃ t2 i, upsert tombOne 2 (sampleOrder 22) = .ok (true, t2) ∧
      find t2 2 = .ok (some i) ∧ deref t2 i = some (sampleOrder 22) :=
  ⟨reachable_fullOne.wf, ⟨by decide, by decide⟩, by decide,
    reinsert_after_erase reachable_fullOne.wf ⟨by decide, by decide⟩ (sampleOrder 22)
      (by decide)⟩

/-! ## C10: construction -/

theorem countP_set_add (p : Entry Val → Bool) : ∀ (l : List (Entry Val)) (i : Nat)
    (a b : Entry Val), l[i]? = some a →
    (l.set i b).countP p + (if p a then 1 else 0) = l.countP p + (if p b then 1 else 0)
  | [], i, a, b, h => by simp at h
  | x :: l, 0, a, b, h => by
    simp only [List.getElem?_cons_zero, Option.some.injEq] at h
    subst h
    simp only [List.set_cons_zero, List.countP_cons]
    omega
  | x :: l, i + 1, a, b, h => by
    simp only [List.getElem?_cons_succ] at h
    have ih := countP_set_add p l i a b h
    simp only [List.set_cons_succ, List.countP_cons]
    omega

theorem occupied_setSlot {t : FlatHashMap Val} {i : Nat} {a : Entry Val}
    (h : t.entries_[i]? = some a) (b : Entry Val) (sz : Nat) :
    occupied (setSlot t i b sz) + (if isOccupied a then 1 else 0) =
      occupied t + (if isOccupied b then 1 else 0) :=
  countP_set_add isOccupied t.entries_ i a b h

theorem occupied_le {t : FlatHashMap Val} (h : WF t) : occupied t ≤ t.cap_ := by
  rw [← h.len]
  exact List.countP_le_length _

theorem isOccupied_of_nonSentinel {k : Key} (hk : nonSentinel k) (v : Val) :
    isOccupied { key := k, val := v } = true := by
  unfold isOccupied
  exact decide_eq_true hk

/-- One `upsert` with a non-sentinel key keeps `size_` equal to the number of occupied
slots, and `size_` grows by one exactly when the call returns `true`. -/
theorem upsert_size {t t' : FlatHashMap Val} (h : WF t) (hs : t.size_ = occupied t) {k : Key}
    (hk : nonSentinel k) {v : Val} {b : Bool} (hu : upsert t k v = .ok (b, t')) :
    t'.size_ = occupied t' ∧ t'.size_ = t.size_ + (if b then 1 else 0) := by
  rw [upsert_eq h] at hu
  cases hf : firstHit (hitU t k) (MAX_PROBES + 1) 0 with
  | none =>
    rw [hf] at hu
    cases hu
    exact ⟨hs, by simp⟩
  | some m =>
    rw [hf] at hu
    obtain ⟨_, _, hhit, _⟩ := firstHit_eq_some.mp hf
    obtain ⟨e, hent⟩ := h.entry_at (h.probe_lt k m)
    have hkey := keyAt_of_entry hent
    have hcap := h.cap_le
    by_cases hc : keyAt t (probe t k m) = some EMPTY ∨ keyAt t (probe t k m) = some TOMBSTONE
    · simp only [hc, if_true] at hu
      cases hu
      have he : isOccupied e = false := by
        unfold isOccupied
        rw [hkey] at hc
        rcases hc with h1 | h1 <;> simp [Option.some.inj h1]
      have hcount := occupied_setSlot hent { key := k, val := v } ((t.size_ + 1) % 2 ^ 64)
      rw [he, isOccupied_of_nonSentinel hk v] at hcount
      simp only [Bool.false_eq_true, if_false, if_true, Nat.add_zero] at hcount
      have hle := occupied_le (h.setSlot (probe t k m) { key := k, val := v }
        (Nat.mod_lt (t.size_ + 1) (show 0 < 2 ^ 64 by decide)))
      have hcap' : (setSlot t (probe t k m) { key := k, val := v }
        ((t.size_ + 1) % 2 ^ 64)).cap_ = t.cap_ := rfl
      have hmod : (t.size_ + 1) % 2 ^ 64 = t.size_ + 1 := by
        apply Nat.mod_eq_of_lt
        omega
      constructor
      · show (t.size_ + 1) % 2 ^ 64 = _
        rw [hcount, hmod, hs]
      · show (t.size_ + 1) % 2 ^ 64 = _
        rw [hmod]
        simp
    · simp only [hc, if_false] at hu
      cases hu
      have hek : e.key = k := by
        rcases hitU_true_iff.mp hhit with h1 | h1 | h1
        · exact absurd (Or.inl h1) hc
        · exact absurd (Or.inr h1) hc
        · rw [hkey] at h1
          exact Option.some.inj h1
      have he : isOccupied e = true := by
        unfold isOccupied
        rw [hek]
        exact decide_eq_true hk
      have hcount := occupied_setSlot hent { key := k, val := v } t.size_
      rw [he, isOccupied_of_nonSentinel hk v] at hcount
      constructor
      · show t.size_ = _
        omega
      · show t.size_ = _
        simp

/-- One `erase` with a non-sentinel key keeps `size_` equal to the number of occupied
slots, and `size_` shrinks by one exactly when the call returns `true`. -/
theorem erase_size {t t' : FlatHashMap Val} (h : WF t) (hs : t.size_ = occupied t) {k : Key}
    (hk : nonSentinel k) {b : Bool} (hu : erase t k = .ok (b, t')) :
    t'.size_ = occupied t' ∧ t'.size_ + (if b then 1 else 0) = t.size_ := by
  cases b with
  | false =>
    have : t' = t := by
      rw [erase_eq h] at hu
      split at hu
      · cases hu; rfl
      · split at hu
        · cases hu; rfl
        · cases hu
    subst this
    exact ⟨hs, by simp⟩
  | true =>
    obtain ⟨m, e, _, _, hent, hek, _, ht'⟩ := erase_true_inv h hu
    have he : isOccupied e = true := by
      unfold isOccupied
      rw [hek]
      exact decide_eq_true hk
    have hcount := occupied_setSlot hent { key := TOMBSTONE, val := e.val }
      ((t.size_ + 2 ^ 64 - 1) % 2 ^ 64)
    have hb : isOccupied ({ key := TOMBSTONE, val := e.val } : Entry Val) = false := by
      unfold isOccupied
      simp
    rw [he, hb] at hcount
    simp only [Bool.false_eq_true, if_false, if_true, Nat.add_zero] at hcount
    have hlt := h.size_lt
    have hmod : (t.size_ + 2 ^ 64 - 1) % 2 ^ 64 = t.size_ - 1 := by omega
    have hpos : 1 ≤ t.size_ := by omega
    rw [ht']
    constructor
    · show (t.size_ + 2 ^ 64 - 1) % 2 ^ 64 = _
      omega
    · show (t.size_ + 2 ^ 64 - 1) % 2 ^ 64 + _ = _
      simp only [if_true]
      omega

theorem upsert_returns {t : FlatHashMap Val} (h : WF t) (k : Key) (v : Val) :
    ∃ b t', upsert t k v = .ok (b, t') := by
  rw [upsert_eq h]
  split
  · exact ⟨_, _, rfl⟩
  · split
    · exact ⟨_, _, rfl⟩
    · exact ⟨_, _, rfl⟩

theorem find_returns {t : FlatHashMap Val} (h : WF t) (k : Key) :
    ∃ r, find t k = .ok r := by
  rw [find_eq h]
  split
  · exact ⟨_, rfl⟩
  · split
    · exact ⟨_, rfl⟩
    · exact ⟨_, rfl⟩

theorem Trace.Balanced.step {s : Trace Val} (hs : s.Balanced) {op : Op Val}
    (hk : nonSentinel op.key) : ∃ s', s.step op = .ok s' ∧ s'.Balanced := by
  cases op with
  | upsert k v =>
    obtain ⟨b, t', hu⟩ := upsert_returns hs.wf k v
    obtain ⟨h1, h2⟩ := upsert_size hs.wf hs.size_occ hk hu
    refine ⟨{ table := t', inserted := if b then s.inserted + 1 else s.inserted,
              removed := s.removed }, by simp only [Trace.step, hu], hs.wf.of_upsert hu, h1, ?_⟩
    have := hs.balance
    cases b <;> simp at h2 ⊢ <;> omega
  | find k =>
    obtain ⟨r, hf⟩ := find_returns hs.wf k
    exact ⟨s, by simp only [Trace.step, hf], hs⟩
  | erase k =>
    obtain ⟨b, t', hu⟩ := erase_returns hs.wf k
    obtain ⟨h1, h2⟩ := erase_size hs.wf hs.size_occ hk hu
    refine ⟨{ table := t', inserted := s.inserted,
              removed := if b then s.removed + 1 else s.removed },
      by simp only [Trace.step, hu], hs.wf.of_erase hu, h1, ?_⟩
    have := hs.balance
    cases b <;> simp at h2 ⊢ <;> omega

theorem Trace.Balanced.run : ∀ (ops : List (Op Val)) {s : Trace Val}, s.Balanced →
    (∀ op, op ∈ ops → nonSentinel op.key) → ∃ s', s.run ops = .ok s' ∧ s'.Balanced
  | [], s, hs, _ => ⟨s, rfl, hs⟩
  | op :: ops, s, hs, hk => by
    obtain ⟨s1, h1, hb1⟩ := hs.step (hk op (List.mem_cons_self _ _))
    obtain ⟨s2, h2, hb2⟩ := Trace.Balanced.run ops hb1
      (fun o ho => hk o (List.mem_cons_of_mem _ ho))
    refine ⟨s2, ?_, hb2⟩
    simp only [Trace.run, h1]
    exact h2

theorem Trace.Balanced.at_construct {uninit : Nat → Val} {c : Nat} {t : FlatHashMap Val}
    (hc : c < 2 ^ 64) (h : construct uninit c = .ok t) : (Trace.mk t 0 0).Balanced := by
  refine ⟨WF.of_construct hc h, ?_, ?_⟩
  · obtain ⟨_, ht⟩ := construct_ok hc h
    subst ht
    show 0 = List.countP _ _
    symm
    rw [List.countP_eq_zero]
    intro a ha
    simp only [List.mem_map, List.mem_range] at ha
    obtain ⟨i, _, rfl⟩ := ha
    simp [isOccupied]
  · obtain ⟨_, ht⟩ := construct_ok hc h
    subst ht
    rfl

/-- C6 fails as stated when a call uses a reserved key: on a fresh table of capacity 1,
after `upsert(2, _)`, `erase(2)` and `erase(1)` the last call matches the tombstone,
returns `true` and decrements `size_` below zero, so `size()` is `2 ^ 64 - 1` while one
upsert and two erases returned `true`. -/
theorem size_count_fails_with_sentinel_key :
    construct zeroOrder 1 = .ok emptyOne ∧
    ∃ s, (Trace.mk emptyOne 0 0).run [.upsert 2 (sampleOrder 2), .erase 2, .erase 1] = .ok s ∧
      size s.table = 2 ^ 64 - 1 ∧ s.inserted = 1 ∧ s.removed = 2 ∧
      (size s.table : Int) ≠ (s.inserted : Int) - (s.removed : Int) :=
  ⟨by decide,
    ⟨Trace.mk wrappedOne 1 2, by decide, by decide, rfl, rfl, by decide⟩⟩

/-- C6 (amended): for every finite sequence of `upsert`/`find`/`erase` calls with
non-sentinel keys applied to a freshly constructed table, after every prefix of the
sequence all calls have returned and `size()` equals the number of upsert calls of
the prefix that returned `true` minus the number of erase calls that returned `true`. -/
theorem size_is_inserts_minus_erases (uninit : Nat → Val) {c : Nat} (hc : c < 2 ^ 64)
    {t0 : FlatHashMap Val} (h0 : construct uninit c = .ok t0) (ops : List (Op Val))
    (hk : ∀ op, op ∈ ops → nonSentinel op.key) (n : Nat) :
    ∃ s, (Trace.mk t0 0 0).run (ops.take n) = .ok s ∧
      (size s.table : Int) = (s.inserted : Int) - (s.removed : Int) := by
  obtain ⟨s, hrun, hb⟩ := Trace.Balanced.run (ops.take n) (Trace.Balanced.at_construct hc h0)
    (fun op hop => hk op (List.mem_of_mem_take hop))
  refine ⟨s, hrun, ?_⟩
  have := hb.balance
  unfold size
  omega

theorem size_is_inserts_minus_erases_witness :
    (8 : Nat) < 2 ^ 64 ∧ construct zeroOrder 8 = .ok emptyEight ∧
    (∀ op, op ∈ sampleOps → nonSentinel op.key) ∧
    (∃ s, (Trace.mk emptyEight 0 0).run (sampleOps.take 6) = .ok s ∧
      (size s.table : Int) = (s.inserted : Int) - (s.removed : Int)) ∧
    (Trace.mk emptyEight 0 0).run (sampleOps.take 6) =
      .ok (Trace.mk (setSlot (setSlot eightTable 1 { key := 10, val := sampleOrder 11 } 3)
        2 { key := 1, val := sampleOrder 2 } 2) 3 1) :=
  ⟨by decide, by decide, by decide,
    size_is_inserts_minus_erases zeroOrder (show (8 : Nat) < 2 ^ 64 by decide)
      (show construct zeroOrder 8 = .ok emptyEight by decide) sampleOps (by decide) 6,
    by decide⟩

/-! ## C7: re-insertion after erasing everything -/

/-- Pigeonhole along a probe sequence: if the first `n ≤ cap_` slots of the probe
sequence of `k` are all occupied, the table has at least `n` occupied slots. -/
theorem occupied_ge_of_run {t : FlatHashMap Val} (h : WF t) (k : Key) {n : Nat}
    (hn : n ≤ t.cap_)
    (hocc : ∀ j, j < n → ∃ e, t.entries_[probe t k j]? = some e ∧ isOccupied e = true) :
    n ≤ occupied t := by
  have hlen := h.len
  have hperm : occupied t = (t.entries_.rotate (bucket t k)).countP isOccupied :=
    ((List.rotate_perm t.entries_ (bucket t k)).countP_eq isOccupied).symm
  have hsub : ((t.entries_.rotate (bucket t k)).take n).countP isOccupied ≤
      (t.entries_.rotate (bucket t k)).countP isOccupied :=
    List.Sublist.countP_le isOccupied (List.take_sublist n _)
  have hall : ((t.entries_.rotate (bucket t k)).take n).countP isOccupied =
      ((t.entries_.rotate (bucket t k)).take n).length := by
    rw [List.countP_eq_length]
    intro a ha
    obtain ⟨j, hj⟩ := List.mem_iff_getElem?.mp ha
    have hjn : j < n := by
      by_contra hge
      rw [List.getElem?_take_eq_none (by omega)] at hj
      cases hj
    rw [List.getElem?_take_of_lt hjn, List.getElem?_rotate (by omega)] at hj
    obtain ⟨e, he, hoe⟩ := hocc j hjn
    have hidx : (j + bucket t k) % t.entries_.length = probe t k j := by
      unfold probe
      rw [hlen, Nat.add_comm]
    rw [hidx, he] at hj
    cases hj
    exact hoe
  have hlt : ((t.entries_.rotate (bucket t k)).take n).length = n := by
    rw [List.length_take, List.length_rotate, hlen]
    omega
  omega

/-- When fewer than `MAX_PROBES + 1` slots are occupied and the table is not full, the
loop of `upsert` reaches an `EMPTY` or `TOMBSTONE` slot within its budget. -/
theorem exists_hitU_of_room {t : FlatHashMap Val} (h : WF t) (k : Key)
    (h1 : occupied t < MAX_PROBES + 1) (h2 : occupied t < t.cap_) :
    ∃ j, j ≤ MAX_PROBES ∧ hitU t k j = true := by
  by_contra hno
  have hall : ∀ j, j ≤ MAX_PROBES → hitU t k j = false := by
    intro j hj
    by_contra hc
    exact hno ⟨j, hj, by simpa using hc⟩
  have hge : occupied t + 1 ≤ occupied t := by
    apply occupied_ge_of_run h k (by omega)
    intro j hj
    obtain ⟨e, he⟩ := h.entry_at (h.probe_lt k j)
    refine ⟨e, he, ?_⟩
    have hu := hitU_false_iff.mp (hall j (by omega))
    rw [keyAt_of_entry he] at hu
    unfold isOccupied
    apply decide_eq_true
    exact ⟨fun h3 => hu.1 (by rw [h3]), fun h3 => hu.2.1 (by rw [h3])⟩
  omega

/-- The two ways an `upsert` of a key that no slot holds can end: rejected with the
table unchanged, or inserted at the first `EMPTY` or `TOMBSTONE` slot. -/
theorem upsert_absent_inv {t t' : FlatHashMap Val} (h : WF t) {k : Key} (habs : ¬ present t k)
    {v : Val} {b : Bool} (hu : upsert t k v = .ok (b, t')) :
    (b = false ∧ t' = t ∧ ∀ i, i ≤ MAX_PROBES → hitU t k i = false) ∨
    ∃ m e, m ≤ MAX_PROBES ∧ (∀ i, i < m → hitU t k i = false) ∧ hitU t k m = true ∧
      t.entries_[probe t k m]? = some e ∧ isOccupied e = false ∧ b = true ∧
      t' = setSlot t (probe t k m) { key := k, val := v } ((t.size_ + 1) % 2 ^ 64) := by
  rw [upsert_eq h] at hu
  cases hf : firstHit (hitU t k) (MAX_PROBES + 1) 0 with
  | none =>
    rw [hf] at hu
    cases hu
    exact Or.inl ⟨rfl, rfl, fun i hi => firstHit_eq_none.mp hf i (Nat.zero_le i) (by omega)⟩
  | some m =>
    rw [hf] at hu
    obtain ⟨_, hm, hhit, hfirst⟩ := firstHit_eq_some.mp hf
    obtain ⟨e, hent⟩ := h.entry_at (h.probe_lt k m)
    have hkey := keyAt_of_entry hent
    have hc : keyAt t (probe t k m) = some EMPTY ∨ keyAt t (probe t k m) = some TOMBSTONE := by
      rcases hitU_true_iff.mp hhit with h1 | h1 | h1
      · exact Or.inl h1
      · exact Or.inr h1
      · exact absurd ⟨_, h1⟩ habs
    simp only [hc, if_true] at hu
    cases hu
    right
    refine ⟨m, e, by omega, fun i hi => hfirst i (Nat.zero_le i) hi, hhit, hent, ?_, rfl, rfl⟩
    unfold isOccupied
    rw [hkey] at hc
    rcases hc with h1 | h1 <;> simp [Option.some.inj h1]

theorem hitF_false_of_hitU_false {t : FlatHashMap Val} {k : Key} {j : Nat}
    (h : hitU t k j = false) : hitF t k j = false := by
  have hu := hitU_false_iff.mp h
  exact hitF_false_iff.mpr ⟨hu.1, hu.2.2⟩

/-- `Findable` survives the upsert of a key that no slot holds. -/
theorem Findable.upsert_absent {t t' : FlatHashMap Val} (hg : Findable t) (h : WF t) {k : Key}
    (hk : nonSentinel k) (habs : ¬ present t k) {v : Val} {b : Bool}
    (hu : upsert t k v = .ok (b, t')) : Findable t' := by
  rcases upsert_absent_inv h habs hu with ⟨_, rfl, _⟩ | ⟨m, e, hm, hfirst, hhit, hent, _, _, rfl⟩
  · exact hg
  · have hlen : probe t k m < t.entries_.length := by rw [h.len]; exact h.probe_lt k m
    intro i k' hi hk'
    rw [keyAt_setSlot t _ _ _ hlen] at hi
    by_cases hip : i = probe t k m
    · simp only [hip, if_true, Option.some.injEq] at hi
      subst hi
      refine ⟨m, hm, by rw [probe_setSlot, hip], ?_⟩
      intro j' hj'
      have hne : probe t k j' ≠ probe t k m :=
        probe_ne_of_hit_ne (p := hitU) (hitU_congr t k) (hfirst j' hj') hhit
      have hF := hitF_false_iff.mp (hitF_false_of_hitU_false (hfirst j' hj'))
      rw [hitF_false_iff, probe_setSlot, keyAt_setSlot t _ _ _ hlen]
      simp only [hne, if_false]
      exact hF
    · simp only [hip, if_false] at hi
      obtain ⟨j, hj, hpj, hbefore⟩ := hg i k' hi hk'
      have hkk : k ≠ k' := by
        intro heq
        exact habs ⟨i, by rw [heq]; exact hi⟩
      refine ⟨j, hj, by rw [probe_setSlot]; exact hpj, ?_⟩
      intro j' hj'
      have hF := hitF_false_iff.mp (hbefore j' hj')
      rw [hitF_false_iff, probe_setSlot, keyAt_setSlot t _ _ _ hlen]
      by_cases hpp : probe t k' j' = probe t k m
      · simp only [hpp, if_true]
        exact ⟨fun h2 => hk.1 (Option.some.inj h2), fun h2 => hkk (Option.some.inj h2)⟩
      · simp only [hpp, if_false]
        exact hF

theorem present_of_upsert {t t' : FlatHashMap Val} (h : WF t) {k : Key} {v : Val} {b : Bool}
    (hu : upsert t k v = .ok (b, t')) {k' : Key} (hp : present t' k') :
    k' = k ∨ present t k' := by
  rw [upsert_eq h] at hu
  have key : ∀ m sz, present (setSlot t (probe t k m) { key := k, val := v } sz) k' →
      k' = k ∨ present t k' := by
    intro m sz ⟨i, hi⟩
    have hlen : probe t k m < t.entries_.length := by rw [h.len]; exact h.probe_lt k m
    rw [keyAt_setSlot t _ _ _ hlen] at hi
    by_cases hip : i = probe t k m
    · simp only [hip, if_true, Option.some.injEq] at hi
      exact Or.inl hi.symm
    · simp only [hip, if_false] at hi
      exact Or.inr ⟨i, hi⟩
  split at hu
  · cases hu
    exact Or.inr hp
  · split at hu
    · cases hu
      exact key _ _ hp
    · cases hu
      exact key _ _ hp

/-- On a table with `Findable`, `erase(k)` removes the key altogether and keeps
`Findable`; the other live keys stay, and no live key appears. -/
theorem Findable.erase {t t' : FlatHashMap Val} (hg : Findable t) (h : WF t) {k : Key}
    (hk : nonSentinel k) {b : Bool} (he : erase t k = .ok (b, t')) :
    Findable t' ∧ ¬ present t' k ∧
      ∀ k', nonSentinel k' → present t' k' → present t k' := by
  cases b with
  | false =>
    have ht : t' = t := by
      rw [erase_eq h] at he
      split at he
      · cases he; rfl
      · split at he
        · cases he; rfl
        · cases he
    subst ht
    refine ⟨hg, ?_, fun _ _ hp => hp⟩
    rintro ⟨i, hi⟩
    obtain ⟨j, hj, hpj, hbefore⟩ := hg i k hi hk
    have hhit : hitF t' k j = true := by
      rw [hitF_true_iff, hpj]
      exact Or.inr hi
    have hf : firstHit (hitF t' k) (MAX_PROBES + 1) 0 = some j := by
      rw [firstHit_eq_some]
      exact ⟨Nat.zero_le _, by omega, hhit, fun i' _ hi' => hbefore i' hi'⟩
    rw [erase_eq h, hf] at he
    have hne : ¬ keyAt t' (probe t' k j) = some EMPTY := by
      rw [hpj, hi]
      exact fun h2 => hk.1 (Option.some.inj h2)
    simp only [hne, if_false] at he
    cases he
  | true =>
    obtain ⟨m, e, hm, hfirstF, hent, hek, _, ht'⟩ := erase_true_inv h he
    have hlen : probe t k m < t.entries_.length := by rw [h.len]; exact h.probe_lt k m
    have hkm : keyAt t (probe t k m) = some k := by rw [keyAt_of_entry hent, hek]
    have hback : ∀ i k', nonSentinel k' → keyAt t' i = some k' →
        i ≠ probe t k m ∧ keyAt t i = some k' := by
      intro i k' hk' hi
      rw [ht', keyAt_setSlot t _ _ _ hlen] at hi
      by_cases hip : i = probe t k m
      · simp only [hip, if_true, Option.some.injEq] at hi
        exact absurd hi.symm hk'.2
      · simp only [hip, if_false] at hi
        exact ⟨hip, hi⟩
    refine ⟨?_, ?_, ?_⟩
    · intro i k' hi hk'
      obtain ⟨_, hi0⟩ := hback i k' hk' hi
      obtain ⟨j, hj, hpj, hbefore⟩ := hg i k' hi0 hk'
      refine ⟨j, hj, by rw [ht', probe_setSlot]; exact hpj, ?_⟩
      intro j' hj'
      have hF := hitF_false_iff.mp (hbefore j' hj')
      rw [ht', hitF_false_iff, probe_setSlot, keyAt_setSlot t _ _ _ hlen]
      by_cases hpp : probe t k' j' = probe t k m
      · simp only [hpp, if_true]
        exact ⟨fun h2 => absurd (Option.some.inj h2) (by decide),
          fun h2 => hk'.2 (Option.some.inj h2).symm⟩
      · simp only [hpp, if_false]
        exact hF
    · rintro ⟨i, hi⟩
      obtain ⟨hne, hi0⟩ := hback i k hk hi
      obtain ⟨j, hj, hpj, hbefore⟩ := hg i k hi0 hk
      have hhitj : hitF t k j = true := by
        rw [hitF_true_iff, hpj]
        exact Or.inr hi0
      have hhitm : hitF t k m = true := hitF_true_iff.mpr (Or.inr hkm)
      have hjm : j = m := by
        rcases Nat.lt_trichotomy j m with hlt | heq | hgt
        · have := hfirstF j hlt
          rw [hhitj] at this
          cases this
        · exact heq
        · have := hbefore m hgt
          rw [hhitm] at this
          cases this
      exact hne (by rw [← hpj, hjm])
    · intro k' hk' ⟨i, hi⟩
      exact ⟨i, (hback i k' hk' hi).2⟩

theorem cap_of_upsert {t t' : FlatHashMap Val} (h : WF t) {k : Key} {v : Val} {b : Bool}
    (hu : upsert t k v = .ok (b, t')) : t'.cap_ = t.cap_ := by
  rw [upsert_eq h] at hu
  split at hu
  · cases hu; rfl
  · split at hu
    · cases hu; rfl
    · cases hu; rfl

theorem cap_of_erase {t t' : FlatHashMap Val} (h : WF t) {k : Key} {b : Bool}
    (hu : erase t k = .ok (b, t')) : t'.cap_ = t.cap_ := by
  cases b with
  | false =>
    rw [erase_eq h] at hu
    split at hu
    · cases hu; rfl
    · split at hu
      · cases hu; rfl
      · cases hu
  | true =>
    obtain ⟨_, _, _, _, _, _, _, ht'⟩ := erase_true_inv h hu
    rw [ht']
    rfl

/-- First phase: upserting pairwise distinct keys that the table does not hold keeps
`Findable`, and afterwards the table holds no live key other than the old ones and
the upserted ones. -/
theorem upsertAll_absent : ∀ (l : List (Key × Val)) (t : FlatHashMap Val) (P : Key → Prop),
    WF t → Findable t → (∀ k', nonSentinel k' → present t k' → P k') →
    (l.map Prod.fst).Nodup → (∀ k, k ∈ l.map Prod.fst → nonSentinel k ∧ ¬ P k) →
    ∃ r t', upsertAll t l = .ok (r, t') ∧ WF t' ∧ Findable t' ∧ t'.cap_ = t.cap_ ∧
      ∀ k', nonSentinel k' → present t' k' → P k' ∨ k' ∈ l.map Prod.fst
  | [], t, P, h, hg, hP, _, _ =>
    ⟨[], t, rfl, h, hg, rfl, fun k' hk' hp => Or.inl (hP k' hk' hp)⟩
  | (k, v) :: rest, t, P, h, hg, hP, hnd, hkeys => by
    have hk := hkeys k (by simp)
    have habs : ¬ present t k := fun hp => hk.2 (hP k hk.1 hp)
    obtain ⟨b, t1, hu⟩ := upsert_returns h k v
    have h1 := h.of_upsert hu
    have hg1 := hg.upsert_absent h hk.1 habs hu
    simp only [List.map_cons, List.nodup_cons] at hnd
    obtain ⟨r, t', hrun, h', hg', hcap, hP'⟩ := upsertAll_absent rest t1 (fun x => P x ∨ x = k)
      h1 hg1
      (fun k' hk' hp => by
        rcases present_of_upsert h hu hp with h2 | h2
        · exact Or.inr h2
        · exact Or.inl (hP k' hk' h2))
      hnd.2
      (fun k2 hk2 => by
        have := hkeys k2 (by simp only [List.map_cons, List.mem_cons]; exact Or.inr hk2)
        refine ⟨this.1, ?_⟩
        rintro (h3 | h3)
        · exact this.2 h3
        · exact hnd.1 (h3 ▸ hk2))
    refine ⟨b :: r, t', ?_, h', hg', by rw [hcap, cap_of_upsert h hu], ?_⟩
    · simp only [upsertAll, hu, hrun]
    · intro k' hk' hp
      rcases hP' k' hk' hp with (h2 | h2) | h2
      · exact Or.inl h2
      · exact Or.inr (by simp only [List.map_cons, List.mem_cons]; exact Or.inl h2)
      · exact Or.inr (by simp only [List.map_cons, List.mem_cons]; exact Or.inr h2)

/-- Second phase: erasing a list of keys from a table with `Findable` leaves none of
them in the table. -/
theorem eraseAll_removes : ∀ (l : List Key) (t : FlatHashMap Val),
    WF t → Findable t → (∀ k, k ∈ l → nonSentinel k) →
    ∃ r t', eraseAll t l = .ok (r, t') ∧ WF t' ∧ Findable t' ∧ t'.cap_ = t.cap_ ∧
      ∀ k', nonSentinel k' → present t' k' → present t k' ∧ k' ∉ l
  | [], t, h, hg, _ =>
    ⟨[], t, rfl, h, hg, rfl, fun k' _ hp => ⟨hp, List.not_mem_nil k'⟩⟩
  | k :: rest, t, h, hg, hkeys => by
    have hk := hkeys k (List.mem_cons_self _ _)
    obtain ⟨b, t1, he⟩ := erase_returns h k
    have h1 := h.of_erase he
    obtain ⟨hg1, hgone, hkeep⟩ := hg.erase h hk he
    obtain ⟨r, t', hrun, h', hg', hcap, hP'⟩ := eraseAll_removes rest t1 h1 hg1
      (fun k2 hk2 => hkeys k2 (List.mem_cons_of_mem _ hk2))
    refine ⟨b :: r, t', ?_, h', hg', by rw [hcap, cap_of_erase h he], ?_⟩
    · simp only [eraseAll, he, hrun]
    · intro k' hk' hp
      obtain ⟨hp1, hnot⟩ := hP' k' hk' hp
      refine ⟨hkeep k' hk' hp1, ?_⟩
      simp only [List.mem_cons, not_or]
      exact ⟨fun heq => hgone (heq ▸ hp1), hnot⟩

theorem occupied_eq_zero {t : FlatHashMap Val}
    (hnone : ∀ k', nonSentinel k' → ¬ present t k') : occupied t = 0 := by
  unfold occupied
  rw [List.countP_eq_zero]
  intro e he
  obtain ⟨i, hi⟩ := List.mem_iff_getElem?.mp he
  intro hocc
  have hns : nonSentinel e.key := by
    unfold isOccupied at hocc
    exact of_decide_eq_true hocc
  exact hnone e.key hns ⟨i, keyAt_of_entry hi⟩

/-- Third phase: as long as fewer than `MAX_PROBES + 1` slots are occupied and the
table is not full, upserting pairwise distinct keys that the table does not hold
inserts every one of them. -/
theorem upsertAll_all_inserted : ∀ (l : List (Key × Val)) (t : FlatHashMap Val),
    WF t → occupied t + l.length ≤ MAX_PROBES + 1 → occupied t + l.length ≤ t.cap_ →
    (l.map Prod.fst).Nodup → (∀ k, k ∈ l.map Prod.fst → nonSentinel k ∧ ¬ present t k) →
    ∃ t', upsertAll t l = .ok (List.replicate l.length true, t')
  | [], t, _, _, _, _, _ => ⟨t, rfl⟩
  | (k, v) :: rest, t, h, hb, hc, hnd, hkeys => by
    have hk := hkeys k (by simp)
    simp only [List.length_cons] at hb hc
    obtain ⟨j, hj, hjhit⟩ := exists_hitU_of_room h k (by omega) (by omega)
    obtain ⟨b, t1, hu⟩ := upsert_returns h k v
    have h1 := h.of_upsert hu
    simp only [List.map_cons, List.nodup_cons] at hnd
    rcases upsert_absent_inv h hk.2 hu with ⟨_, _, hnone⟩ | ⟨m, e, _, _, _, hent, hoe, hbt, ht1⟩
    · have := hnone j hj
      rw [hjhit] at this
      cases this
    · have hcount := occupied_setSlot hent { key := k, val := v } ((t.size_ + 1) % 2 ^ 64)
      rw [hoe, isOccupied_of_nonSentinel hk.1 v, ← ht1] at hcount
      simp only [Bool.false_eq_true, if_false, if_true, Nat.add_zero] at hcount
      have hcap1 : t1.cap_ = t.cap_ := cap_of_upsert h hu
      obtain ⟨t', hrun⟩ := upsertAll_all_inserted rest t1 h1 (by omega) (by omega) hnd.2
        (fun k2 hk2 => by
          have := hkeys k2 (by simp only [List.map_cons, List.mem_cons]; exact Or.inr hk2)
          refine ⟨this.1, ?_⟩
          intro hp
          rcases present_of_upsert h hu hp with h3 | h3
          · exact hnd.1 (h3 ▸ hk2)
          · exact this.2 h3)
      refine ⟨t', ?_⟩
      subst hbt
      simp only [upsertAll, hu, hrun, List.length_cons, List.replicate_succ]

theorem construct_returns (uninit : Nat → Val) {c n : Nat} (hpow : c = 2 ^ n)
    (hc : c < 2 ^ 64) : ∃ t, construct uninit c = .ok t := by
  have hg : ¬ (c = 0 ∨ (c &&& ((c + 2 ^ 64 - 1) % 2 ^ 64)) ≠ 0) := by
    intro hg
    rcases (construct_guard hc).mp hg with h0 | h0
    · rw [hpow] at h0
      exact absurd h0 (Nat.pos_iff_ne_zero.mp (Nat.pos_pow_of_pos n (by decide)))
    · exact h0 ⟨n, hpow⟩
  unfold construct
  simp only [hg, if_false]
  exact ⟨_, rfl⟩

theorem construct_no_live_key {uninit : Nat → Val} {c : Nat} {t : FlatHashMap Val}
    (hc : c < 2 ^ 64) (h : construct uninit c = .ok t) {k : Key} (hk : nonSentinel k) :
    ¬ present t k := by
  obtain ⟨_, ht⟩ := construct_ok hc h
  rintro ⟨i, hi⟩
  rw [ht] at hi
  unfold keyAt at hi
  simp only [List.getElem?_map] at hi
  cases hr : (List.range c)[i]? with
  | none => rw [hr] at hi; cases hi
  | some x =>
    rw [hr] at hi
    exact hk.1 (Option.some.inj hi).symm

/-- C7 fails as stated for N = 130 and capacity 512.  The keys of `firstKeys` are
upserted and erased, which leaves tombstones in slots 0 to 129.  The first 129 keys of
`secondKeys` are then inserted into slots 0 to 128, and the last key, whose home slot
is 0, finds all `MAX_PROBES + 1` slots it examines occupied and is rejected. -/
theorem tombstone_reuse_fails_at_130 :
    (512 : Nat) = 2 ^ 9 ∧ firstKeys.length = 130 ∧ secondKeys.length = 130 ∧
    2 * 130 ≤ 512 ∧ firstKeys.Nodup ∧ secondKeys.Nodup ∧
    (∀ k, k ∈ firstKeys → k ∉ secondKeys) ∧
    (∀ k, k ∈ firstKeys ++ secondKeys → nonSentinel k) ∧
    upsertAll afterErase (pairsOf secondKeys) =
      .ok (List.replicate 129 true ++ [false], afterSecond) ∧
    ¬ TombstoneReuse zeroOrder 512 (pairsOf firstKeys) (pairsOf secondKeys) := by
  have e0 : construct zeroOrder 512 = .ok fresh512 := by decide
  have e1 : upsertAll fresh512 (pairsOf firstKeys) =
      .ok (List.replicate 130 true, afterFirst) := by decide!
  have e2 : eraseAll afterFirst ((pairsOf firstKeys).map Prod.fst) =
      .ok (List.replicate 130 true, afterErase) := by decide!
  have e3 : upsertAll afterErase (pairsOf secondKeys) =
      .ok (List.replicate 129 true ++ [false], afterSecond) := by decide!
  refine ⟨by decide, by decide, by decide, by decide, by decide!, by decide!, by decide!,
    by decide!, e3, ?_⟩
  rintro ⟨t0, r1, t1, r2, t2, t3, h0, h1, h2, h3⟩
  rw [e0] at h0
  cases h0
  rw [e1] at h1
  cases h1
  rw [e2] at h2
  cases h2
  rw [e3] at h3
  cases h3

/-- The scenario of C7 succeeds as long as the lists have at most `MAX_PROBES + 1` keys:
no run of occupied slots can then use up the probes of an upsert. -/
theorem tombstoneReuse_of_room (uninit : Nat → Val) {c n : Nat} (hpow : c = 2 ^ n)
    (hc : c < 2 ^ 64) (l1 l2 : List (Key × Val)) (hlen : l2.length = l1.length)
    (hcap : 2 * l1.length ≤ c) (hbudget : l1.length ≤ MAX_PROBES + 1)
    (hnd1 : (l1.map Prod.fst).Nodup) (hnd2 : (l2.map Prod.fst).Nodup)
    (_hdisj : ∀ k, k ∈ l1.map Prod.fst → k ∉ l2.map Prod.fst)
    (hns1 : ∀ k, k ∈ l1.map Prod.fst → nonSentinel k)
    (hns2 : ∀ k, k ∈ l2.map Prod.fst → nonSentinel k) :
    TombstoneReuse uninit c l1 l2 := by
  obtain ⟨t0, h0⟩ := construct_returns uninit hpow hc
  have hw0 : WF t0 := WF.of_construct hc h0
  have hcap0 : t0.cap_ = c := by rw [(construct_ok hc h0).2]
  have hg0 : Findable t0 := fun i k hi hk => absurd ⟨i, hi⟩ (construct_no_live_key hc h0 hk)
  obtain ⟨r1, t1, hrun1, hw1, hg1, hcap1, hP1⟩ := upsertAll_absent l1 t0 (fun _ => False) hw0 hg0
    (fun k' hk' hp => construct_no_live_key hc h0 hk' hp) hnd1
    (fun k hk => ⟨hns1 k hk, fun hf => hf⟩)
  obtain ⟨r2, t2, hrun2, hw2, _, hcap2, hP2⟩ := eraseAll_removes (l1.map Prod.fst) t1 hw1 hg1 hns1
  have hnone : ∀ k', nonSentinel k' → ¬ present t2 k' := by
    intro k' hk' hp
    obtain ⟨hp1, hnot⟩ := hP2 k' hk' hp
    rcases hP1 k' hk' hp1 with hf | hin
    · exact hf
    · exact hnot hin
  have hocc : occupied t2 = 0 := occupied_eq_zero hnone
  have hcapeq : t2.cap_ = c := by rw [hcap2, hcap1, hcap0]
  obtain ⟨t3, hrun3⟩ := upsertAll_all_inserted l2 t2 hw2 (by omega) (by omega) hnd2
    (fun k hk => ⟨hns2 k hk, hnone k (hns2 k hk)⟩)
  exact ⟨t0, r1, t1, r2, t2, t3, h0, hrun1, hrun2, hrun3⟩

/-- C7 (amended): for every N ≤ MAX_PROBES = 128, every power-of-two capacity C ≥ 2N
and every two lists of N pairwise distinct non-sentinel keys, the second disjoint from
the first: from a fresh table of capacity C, upserting the first list, erasing all its
keys and upserting the second list makes all calls return and every one of the N
re-insertions return `true`. -/
theorem tombstone_reuse_within_budget (uninit : Nat → Val) {c n : Nat} (hpow : c = 2 ^ n)
    (hc : c < 2 ^ 64) (l1 l2 : List (Key × Val)) (hlen : l2.length = l1.length)
    (hcap : 2 * l1.length ≤ c) (hbudget : l1.length ≤ MAX_PROBES)
    (hnd1 : (l1.map Prod.fst).Nodup) (hnd2 : (l2.map Prod.fst).Nodup)
    (hdisj : ∀ k, k ∈ l1.map Prod.fst → k ∉ l2.map Prod.fst)
    (hns1 : ∀ k, k ∈ l1.map Prod.fst → nonSentinel k)
    (hns2 : ∀ k, k ∈ l2.map Prod.fst → nonSentinel k) :
    TombstoneReuse uninit c l1 l2 :=
  tombstoneReuse_of_room uninit hpow hc l1 l2 hlen hcap (Nat.le_succ_of_le hbudget)
    hnd1 hnd2 hdisj hns1 hns2

theorem tombstone_reuse_within_budget_witness :
    (8 : Nat) = 2 ^ 3 ∧ (8 : Nat) < 2 ^ 64 ∧
    TombstoneReuse zeroOrder 8 (pairsOf [2, 10, 18]) (pairsOf [3, 4, 26]) :=
  ⟨by decide, by decide,
    tombstone_reuse_within_budget zeroOrder (show (8 : Nat) = 2 ^ 3 by decide) (by decide)
      (pairsOf [2, 10, 18]) (pairsOf [3, 4, 26]) (by decide) (by decide) (by decide)
      (by decide) (by decide) (by decide) (by decide) (by decide)⟩

/-! ## C15: termination -/

theorem findLoop_fuel_succ (t : FlatHashMap Val) (k : Key) : ∀ (fuel idx probes : Nat)
    (r : Option Nat), findLoop t k fuel idx probes = .ok r →
    findLoop t k (fuel + 1) idx probes = .ok r
  | 0, _, _, _, h => by
    simp only [findLoop] at h
    cases h
  | fuel + 1, idx, probes, r, h => by
    rw [findLoop] at h ⊢
    cases he : t.entries_[idx]? with
    | none =>
      rw [he] at h
      cases h
    | some entry =>
      rw [he] at h
      simp only at h ⊢
      by_cases h1 : entry.key = EMPTY
      · simp only [h1, if_true] at h ⊢
        exact h
      · by_cases h2 : entry.key = k
        · simp only [h1, h2, if_true, if_false] at h ⊢
          exact h
        · by_cases h3 : probes + 1 > MAX_PROBES
          · simp only [h1, h2, h3, if_true, if_false] at h ⊢
            exact h
          · simp only [h1, h2, h3, if_false] at h ⊢
            exact findLoop_fuel_succ t k fuel _ _ r h

theorem upsertLoop_fuel_succ (t : FlatHashMap Val) (k : Key) (v : Val) :
    ∀ (fuel idx probes : Nat) (r : Bool × FlatHashMap Val),
    upsertLoop t k v fuel idx probes = .ok r →
    upsertLoop t k v (fuel + 1) idx probes = .ok r
  | 0, _, _, _, h => by
    simp only [upsertLoop] at h
    cases h
  | fuel + 1, idx, probes, r, h => by
    rw [upsertLoop] at h ⊢
    cases he : t.entries_[idx]? with
    | none =>
      rw [he] at h
      cases h
    | some entry =>
      rw [he] at h
      simp only at h ⊢
      by_cases h1 : entry.key = EMPTY ∨ entry.key = TOMBSTONE
      · simp only [h1, if_true] at h ⊢
        exact h
      · by_cases h2 : entry.key = k
        · simp only [h1, h2, if_true, if_false] at h ⊢
          exact h
        · by_cases h3 : probes + 1 > MAX_PROBES
          · simp only [h1, h2, h3, if_true, if_false] at h ⊢
            exact h
          · simp only [h1, h2, h3, if_false] at h ⊢
            exact upsertLoop_fuel_succ t k v fuel _ _ r h

theorem eraseLoop_fuel_succ (t : FlatHashMap Val) (k : Key) :
    ∀ (fuel idx probes : Nat) (r : Bool × FlatHashMap Val),
    eraseLoop t k fuel idx probes = .ok r →
    eraseLoop t k (fuel + 1) idx probes = .ok r
  | 0, _, _, _, h => by
    simp only [eraseLoop] at h
    cases h
  | fuel + 1, idx, probes, r, h => by
    rw [eraseLoop] at h ⊢
    cases he : t.entries_[idx]? with
    | none =>
      rw [he] at h
      cases h
    | some entry =>
      rw [he] at h
      simp only at h ⊢
      by_cases h1 : entry.key = EMPTY
      · simp only [h1, if_true] at h ⊢
        exact h
      · by_cases h2 : entry.key = k
        · simp only [h1, h2, if_true, if_false] at h ⊢
          exact h
        · by_cases h3 : probes + 1 > MAX_PROBES
          · simp only [h1, h2, h3, if_true, if_false] at h ⊢
            exact h
          · simp only [h1, h2, h3, if_false] at h ⊢
            exact eraseLoop_fuel_succ t k fuel _ _ r h

theorem findLoop_fuel_add (t : FlatHashMap Val) (k : Key) {fuel idx probes : Nat}
    {r : Option Nat} (h : findLoop t k fuel idx probes = .ok r) :
    ∀ n, findLoop t k (fuel + n) idx probes = .ok r
  | 0 => h
  | n + 1 => findLoop_fuel_succ t k (fuel + n) idx probes r (findLoop_fuel_add t k h n)

theorem upsertLoop_fuel_add (t : FlatHashMap Val) (k : Key) (v : Val) {fuel idx probes : Nat}
    {r : Bool × FlatHashMap Val} (h : upsertLoop t k v fuel idx probes = .ok r) :
    ∀ n, upsertLoop t k v (fuel + n) idx probes = .ok r
  | 0 => h
  | n + 1 => upsertLoop_fuel_succ t k v (fuel + n) idx probes r (upsertLoop_fuel_add t k v h n)

theorem eraseLoop_fuel_add (t : FlatHashMap Val) (k : Key) {fuel idx probes : Nat}
    {r : Bool × FlatHashMap Val} (h : eraseLoop t k fuel idx probes = .ok r) :
    ∀ n, eraseLoop t k (fuel + n) idx probes = .ok r
  | 0 => h
  | n + 1 => eraseLoop_fuel_succ t k (fuel + n) idx probes r (eraseLoop_fuel_add t k h n)

/-- C15: for every table of power-of-two capacity and every key, `upsert`, `find` and
`erase` each return a result, and they do so within `MAX_PROBES + 1` turns of the loop:
the loop started with any fuel of at least `MAX_PROBES + 1` returns that same result.
This covers tables without an `EMPTY` slot and capacities below the probe budget, where
the probe sequence wraps around. -/
theorem operations_terminate {t : FlatHashMap Val} (h : WF t) (k : Key) (v : Val) :
    (∃ r, upsert t k v = .ok r ∧
      ∀ fuel, MAX_PROBES + 1 ≤ fuel → upsertLoop t k v fuel (bucket t k) 0 = .ok r) ∧
    (∃ r, find t k = .ok r ∧
      ∀ fuel, MAX_PROBES + 1 ≤ fuel → findLoop t k fuel (bucket t k) 0 = .ok r) ∧
    (∃ r, erase t k = .ok r ∧
      ∀ fuel, MAX_PROBES + 1 ≤ fuel → eraseLoop t k fuel (bucket t k) 0 = .ok r) := by
  refine ⟨?_, ?_, ?_⟩
  · obtain ⟨b, t', hu⟩ := upsert_returns h k v
    refine ⟨(b, t'), hu, fun fuel hf => ?_⟩
    have := upsertLoop_fuel_add t k v hu (fuel - (MAX_PROBES + 1))
    rwa [Nat.add_sub_cancel' hf] at this
  · obtain ⟨r, hu⟩ := find_returns h k
    refine ⟨r, hu, fun fuel hf => ?_⟩
    have := findLoop_fuel_add t k hu (fuel - (MAX_PROBES + 1))
    rwa [Nat.add_sub_cancel' hf] at this
  · obtain ⟨b, t', hu⟩ := erase_returns h k
    refine ⟨(b, t'), hu, fun fuel hf => ?_⟩
    have := eraseLoop_fuel_add t k hu (fuel - (MAX_PROBES + 1))
    rwa [Nat.add_sub_cancel' hf] at this

theorem operations_terminate_witness :
    WF fullOne ∧
    (∃ r, upsert fullOne 3 (sampleOrder 3) = .ok r ∧ ∀ fuel, MAX_PROBES + 1 ≤ fuel →
      upsertLoop fullOne 3 (sampleOrder 3) fuel (bucket fullOne 3) 0 = .ok r) ∧
    (∃ r, find fullOne 3 = .ok r ∧
      ∀ fuel, MAX_PROBES + 1 ≤ fuel → findLoop fullOne 3 fuel (bucket fullOne 3) 0 = .ok r) ∧
    (∃ r, erase fullOne 3 = .ok r ∧
      ∀ fuel, MAX_PROBES + 1 ≤ fuel → eraseLoop fullOne 3 fuel (bucket fullOne 3) 0 = .ok r) ∧
    upsert fullOne 3 (sampleOrder 3) = .ok (false, fullOne) ∧
    find fullOne 3 = .ok none ∧ erase fullOne 3 = .ok (false, fullOne) ∧
    findLoop fullOne 3 MAX_PROBES (bucket fullOne 3) 0 = .out_of_fuel :=
  ⟨reachable_fullOne.wf,
    (operations_terminate reachable_fullOne.wf 3 (sampleOrder 3)).1,
    (operations_terminate reachable_fullOne.wf 3 (sampleOrder 3)).2.1,
    (operations_terminate reachable_fullOne.wf 3 (sampleOrder 3)).2.2,
    by decide, by decide, by decide, by decide⟩

/-! ## C17: masking is reduction modulo the capacity -/

theorem WF.cap_dvd {t : FlatHashMap Val} (h : WF t) : t.cap_ ∣ 2 ^ 64 := by
  obtain ⟨n, hn, hc⟩ := h.pow2
  rw [hc]
  exact Nat.pow_dvd_pow 2 (by omega)

theorem WF.step_mod {t : FlatHashMap Val} (h : WF t) (idx : Nat) :
    ((idx + 1) % 2 ^ 64) &&& t.mask_ = (idx + 1) % t.cap_ := by
  rw [h.and_mask, Nat.mod_mod_of_dvd _ h.cap_dvd]

theorem upsertLoop_in_range {t : FlatHashMap Val} (h : WF t) (k : Key) (v : Val) :
    ∀ (fuel idx probes : Nat), idx < t.cap_ → upsertLoop t k v fuel idx probes ≠ .out_of_range
  | 0, _, _, _ => by
    simp only [upsertLoop]
    exact fun h2 => Outcome.noConfusion h2
  | fuel + 1, idx, probes, hi => by
    obtain ⟨e, he⟩ := h.entry_at hi
    rw [upsertLoop, he]
    simp only
    split
    · exact fun h2 => Outcome.noConfusion h2
    · split
      · exact fun h2 => Outcome.noConfusion h2
      · split
        · exact fun h2 => Outcome.noConfusion h2
        · apply upsertLoop_in_range h k v fuel
          rw [h.step_mod]
          exact Nat.mod_lt _ h.cap_pos

theorem findLoop_in_range {t : FlatHashMap Val} (h : WF t) (k : Key) :
    ∀ (fuel idx probes : Nat), idx < t.cap_ → findLoop t k fuel idx probes ≠ .out_of_range
  | 0, _, _, _ => by
    simp only [findLoop]
    exact fun h2 => Outcome.noConfusion h2
  | fuel + 1, idx, probes, hi => by
    obtain ⟨e, he⟩ := h.entry_at hi
    rw [findLoop, he]
    simp only
    split
    · exact fun h2 => Outcome.noConfusion h2
    · split
      · exact fun h2 => Outcome.noConfusion h2
      · split
        · exact fun h2 => Outcome.noConfusion h2
        · apply findLoop_in_range h k fuel
          rw [h.step_mod]
          exact Nat.mod_lt _ h.cap_pos

theorem eraseLoop_in_range {t : FlatHashMap Val} (h : WF t) (k : Key) :
    ∀ (fuel idx probes : Nat), idx < t.cap_ → eraseLoop t k fuel idx probes ≠ .out_of_range
  | 0, _, _, _ => by
    simp only [eraseLoop]
    exact fun h2 => Outcome.noConfusion h2
  | fuel + 1, idx, probes, hi => by
    obtain ⟨e, he⟩ := h.entry_at hi
    rw [eraseLoop, he]
    simp only
    split
    · exact fun h2 => Outcome.noConfusion h2
    · split
      · exact fun h2 => Outcome.noConfusion h2
      · split
        · exact fun h2 => Outcome.noConfusion h2
        · apply eraseLoop_in_range h k fuel
          rw [h.step_mod]
          exact Nat.mod_lt _ h.cap_pos

/-- C17: for every table of power-of-two capacity `C > 0` and every key `k`,
`bucket(k) = hash64(k) mod C`, each probe step `(idx + 1) & mask_` equals
`(idx + 1) mod C`, so the home slot and every next index are below `C`, and no loop of
`upsert`, `find` or `erase` started at an index below `C` (in particular none of the
three operations) reads a slot outside the array. -/
theorem index_masking_in_bounds {t : FlatHashMap Val} (h : WF t) (k : Key) (v : Val) :
    bucket t k = hash64 k % t.cap_ ∧
    (∀ idx, ((idx + 1) % 2 ^ 64) &&& t.mask_ = (idx + 1) % t.cap_) ∧
    bucket t k < t.cap_ ∧
    (∀ idx, ((idx + 1) % 2 ^ 64) &&& t.mask_ < t.cap_) ∧
    (∀ fuel idx probes, idx < t.cap_ →
      upsertLoop t k v fuel idx probes ≠ .out_of_range ∧
      findLoop t k fuel idx probes ≠ .out_of_range ∧
      eraseLoop t k fuel idx probes ≠ .out_of_range) ∧
    upsert t k v ≠ .out_of_range ∧ find t k ≠ .out_of_range ∧
    erase t k ≠ .out_of_range := by
  refine ⟨h.and_mask _, h.step_mod, h.bucket_lt k, ?_, ?_, ?_, ?_, ?_⟩
  · intro idx
    rw [h.step_mod]
    exact Nat.mod_lt _ h.cap_pos
  · intro fuel idx probes hi
    exact ⟨upsertLoop_in_range h k v fuel idx probes hi, findLoop_in_range h k fuel idx probes hi,
      eraseLoop_in_range h k fuel idx probes hi⟩
  · exact upsertLoop_in_range h k v _ _ _ (h.bucket_lt k)
  · exact findLoop_in_range h k _ _ _ (h.bucket_lt k)
  · exact eraseLoop_in_range h k _ _ _ (h.bucket_lt k)

theorem index_masking_in_bounds_witness :
    WF eightTable ∧ bucket eightTable 18 = hash64 18 % 8 ∧ bucket eightTable 18 = 1 ∧
    (∀ idx, ((idx + 1) % 2 ^ 64) &&& eightTable.mask_ = (idx + 1) % eightTable.cap_) ∧
    (7 + 1) % 2 ^ 64 &&& eightTable.mask_ = 0 ∧
    upsert eightTable 18 (sampleOrder 18) ≠ .out_of_range ∧
    find eightTable 18 ≠ .out_of_range ∧ erase eightTable 18 ≠ .out_of_range :=
  have hw := index_masking_in_bounds reachable_eightTable.wf 18 (sampleOrder 18)
  ⟨reachable_eightTable.wf, hw.1, by decide, hw.2.1, by decide, hw.2.2.2.2.2.1,
    hw.2.2.2.2.2.2.1, hw.2.2.2.2.2.2.2⟩

/-! ## C11, C12, C13: the operations against their specification -/

theorem FoundAt.hitF_eq {t : FlatHashMap Val} {k : Key} {m : Nat} (hs : FoundAt t k m) :
    hitF t k m = true ∧ ∀ j, j < m → hitF t k j = false :=
  ⟨hitF_true_iff.mpr (Or.inr hs.2.1), fun j hj => hitF_false_iff.mpr (hs.2.2 j hj)⟩

/-- The two ways `find` can end on a well-formed table. -/
theorem find_cases {t : FlatHashMap Val} (h : WF t) {k : Key} (hk : k ≠ EMPTY) :
    (find t k = .ok none ∧ ¬ ∃ m, FoundAt t k m) ∨
    (∃ m, FoundAt t k m ∧ find t k = .ok (some (probe t k m))) := by
  rw [find_eq h]
  cases hf : firstHit (hitF t k) (MAX_PROBES + 1) 0 with
  | none =>
    left
    refine ⟨rfl, ?_⟩
    rintro ⟨m, hm⟩
    have := firstHit_eq_none.mp hf m (Nat.zero_le m) (by have := hm.1; omega)
    rw [hm.hitF_eq.1] at this
    cases this
  | some m =>
    obtain ⟨_, hm, hhit, hfirst⟩ := firstHit_eq_some.mp hf
    by_cases hE : keyAt t (probe t k m) = some EMPTY
    · left
      simp only [hE, if_true]
      refine ⟨trivial, ?_⟩
      rintro ⟨m', hm'⟩
      rcases Nat.lt_trichotomy m' m with hlt | heq | hgt
      · have := hfirst m' (Nat.zero_le m') hlt
        rw [hm'.hitF_eq.1] at this
        cases this
      · have hk2 := hm'.2.1
        rw [heq, hE] at hk2
        exact hk (Option.some.inj hk2).symm
      · exact (hm'.2.2 m hgt).1 hE
    · right
      simp only [hE, if_false]
      refine ⟨m, ⟨by omega, ?_, ?_⟩, rfl⟩
      · rcases hitF_true_iff.mp hhit with h1 | h1
        · exact absurd h1 hE
        · exact h1
      · intro j hj
        exact hitF_false_iff.mp (hfirst j (Nat.zero_le j) hj)

theorem FoundAt.unique {t : FlatHashMap Val} {k : Key} {m m' : Nat} (h1 : FoundAt t k m)
    (h2 : FoundAt t k m') : m = m' := by
  rcases Nat.lt_trichotomy m m' with hlt | heq | hgt
  · exact absurd h1.2.1 (h2.2.2 m hlt).2
  · exact heq
  · exact absurd h2.2.1 (h1.2.2 m' hgt).2

theorem find_of_foundAt {t : FlatHashMap Val} (h : WF t) {k : Key} (hk : k ≠ EMPTY) {m : Nat}
    (hm : FoundAt t k m) : find t k = .ok (some (probe t k m)) := by
  rcases find_cases h hk with ⟨_, hno⟩ | ⟨m', hm', hf⟩
  · exact absurd ⟨m, hm⟩ hno
  · rw [hf, hm.unique hm']

/-- What `setSlot` does: slot `i` holds the new entry, every other slot and the shape of
the table are as before, and the count is the given one. -/
theorem setSlot_spec (t : FlatHashMap Val) {i : Nat} (e : Entry Val) (sz : Nat)
    (hi : i < t.entries_.length) :
    (setSlot t i e sz).entries_[i]? = some e ∧
    (∀ j, j ≠ i → (setSlot t i e sz).entries_[j]? = t.entries_[j]?) ∧
    (setSlot t i e sz).entries_.length = t.entries_.length ∧
    (setSlot t i e sz).cap_ = t.cap_ ∧ (setSlot t i e sz).mask_ = t.mask_ ∧
    size (setSlot t i e sz) = sz := by
  refine ⟨?_, ?_, ?_, rfl, rfl, rfl⟩
  · simp [setSlot, List.getElem?_set, hi]
  · intro j hj
    have h2 : ¬ i = j := fun h3 => hj h3.symm
    simp [setSlot, List.getElem?_set, h2]
  · simp [setSlot]

theorem slotState_setSlot (t : FlatHashMap Val) {i : Nat} (e : Entry Val) (sz j : Nat)
    (hi : i < t.entries_.length) :
    slotState (setSlot t i e sz) j =
      if j = i then some (stateOfKey e.key) else slotState t j := by
  unfold slotState
  rw [keyAt_setSlot t e sz j hi]
  split <;> rfl

theorem stateOfKey_nonSentinel {k : Key} (hk : nonSentinel k) : stateOfKey k = .occupied := by
  unfold stateOfKey
  simp only [hk.1, hk.2, if_false]

theorem slotState_some {t : FlatHashMap Val} (h : WF t) {i : Nat} (hi : i < t.cap_) :
    ∃ a, slotState t i = some a := by
  obtain ⟨e, he⟩ := h.entry_at hi
  exact ⟨stateOfKey e.key, by unfold slotState; rw [keyAt_of_entry he]; rfl⟩

/-- Writing an occupied or tombstone entry over a slot along an allowed move keeps
every slot on an allowed move. -/
theorem transition_setSlot {t : FlatHashMap Val} (h : WF t) {s : Nat} (hs : s < t.cap_)
    (e : Entry Val) (sz : Nat)
    (hmove : ∀ a, slotState t s = some a → Transition a (stateOfKey e.key)) (i : Nat)
    (hi : i < t.cap_) :
    ∃ a b, slotState t i = some a ∧ slotState (setSlot t s e sz) i = some b ∧
      Transition a b := by
  have hlen : s < t.entries_.length := by rw [h.len]; exact hs
  obtain ⟨a, ha⟩ := slotState_some h hi
  rw [slotState_setSlot t e sz i hlen]
  by_cases his : i = s
  · subst his
    exact ⟨a, _, ha, by simp only [if_true], hmove a ha⟩
  · exact ⟨a, a, ha, by simp only [his, if_false]; exact ha, Or.inl rfl⟩

theorem transition_upsert {t t' : FlatHashMap Val} (h : WF t) {k : Key} (hk : nonSentinel k)
    {v : Val} {b : Bool} (hu : upsert t k v = .ok (b, t')) (i : Nat) (hi : i < t.cap_) :
    ∃ a c, slotState t i = some a ∧ slotState t' i = some c ∧ Transition a c := by
  rw [upsert_eq h] at hu
  have hsame : ∃ a c, slotState t i = some a ∧ slotState t i = some c ∧ Transition a c := by
    obtain ⟨a, ha⟩ := slotState_some h hi
    exact ⟨a, a, ha, ha, Or.inl rfl⟩
  cases hf : firstHit (hitU t k) (MAX_PROBES + 1) 0 with
  | none =>
    rw [hf] at hu
    cases hu
    exact hsame
  | some m =>
    rw [hf] at hu
    obtain ⟨_, _, hhit, _⟩ := firstHit_eq_some.mp hf
    have hmove : ∀ a, slotState t (probe t k m) = some a →
        Transition a (stateOfKey ({ key := k, val := v } : Entry Val).key) := by
      intro a ha
      show Transition a (stateOfKey k)
      rw [stateOfKey_nonSentinel hk]
      unfold slotState at ha
      rcases hitU_true_iff.mp hhit with h1 | h1 | h1
      · rw [h1] at ha
        cases ha
        exact Or.inr (Or.inl ⟨by decide, rfl⟩)
      · rw [h1] at ha
        cases ha
        exact Or.inr (Or.inr (Or.inr (Or.inr ⟨by decide, rfl⟩)))
      · rw [h1] at ha
        cases ha
        rw [stateOfKey_nonSentinel hk]
        exact Or.inl rfl
    by_cases hc : keyAt t (probe t k m) = some EMPTY ∨ keyAt t (probe t k m) = some TOMBSTONE
    · simp only [hc, if_true] at hu
      cases hu
      exact transition_setSlot h (h.probe_lt k m) _ _ hmove i hi
    · simp only [hc, if_false] at hu
      cases hu
      exact transition_setSlot h (h.probe_lt k m) _ _ hmove i hi

theorem transition_erase {t t' : FlatHashMap Val} (h : WF t) {k : Key} (hk : nonSentinel k)
    {b : Bool} (hu : erase t k = .ok (b, t')) (i : Nat) (hi : i < t.cap_) :
    ∃ a c, slotState t i = some a ∧ slotState t' i = some c ∧ Transition a c := by
  cases b with
  | false =>
    have ht : t' = t := by
      rw [erase_eq h] at hu
      split at hu
      · cases hu; rfl
      · split at hu
        · cases hu; rfl
        · cases hu
    subst ht
    obtain ⟨a, ha⟩ := slotState_some h hi
    exact ⟨a, a, ha, ha, Or.inl rfl⟩
  | true =>
    obtain ⟨m, e, _, _, hent, hek, _, ht'⟩ := erase_true_inv h hu
    rw [ht']
    apply transition_setSlot h (h.probe_lt k m) _ _ _ i hi
    intro a ha
    show Transition a (stateOfKey TOMBSTONE)
    unfold slotState at ha
    rw [keyAt_of_entry hent, hek] at ha
    cases ha
    rw [stateOfKey_nonSentinel hk]
    exact Or.inr (Or.inr (Or.inr (Or.inl ⟨rfl, by decide⟩)))

/-- C14: for every table and every `upsert`, `find` or `erase` call with a non-sentinel
key, the call returns and each slot's state stays the same or makes one of the moves
`EMPTY → OCCUPIED`, `OCCUPIED → OCCUPIED`, `OCCUPIED → TOMBSTONE`,
`TOMBSTONE → OCCUPIED`; in particular a slot that is not `EMPTY` is not `EMPTY`
afterwards. -/
theorem slot_state_machine {s : Trace Val} (h : WF s.table) {op : Op Val}
    (hk : nonSentinel op.key) :
    ∃ s', s.step op = .ok s' ∧ ∀ i, i < s.table.cap_ →
      ∃ a b, slotState s.table i = some a ∧ slotState s'.table i = some b ∧
        Transition a b ∧ (a ≠ .empty → b ≠ .empty) := by
  have hne : ∀ a b : SlotState, Transition a b → a ≠ .empty → b ≠ .empty := by
    intro a b hab ha
    rcases hab with h1 | ⟨h1, _⟩ | ⟨_, h1⟩ | ⟨_, h1⟩ | ⟨_, h1⟩
    · rw [← h1]; exact ha
    · exact absurd h1 ha
    · rw [h1]; exact fun h2 => SlotState.noConfusion h2
    · rw [h1]; exact fun h2 => SlotState.noConfusion h2
    · rw [h1]; exact fun h2 => SlotState.noConfusion h2
  cases op with
  | upsert k v =>
    obtain ⟨b, t', hu⟩ := upsert_returns h k v
    refine ⟨{ table := t', inserted := if b then s.inserted + 1 else s.inserted,
              removed := s.removed }, by simp only [Trace.step, hu], ?_⟩
    intro i hi
    obtain ⟨a, c, ha, hc, hac⟩ := transition_upsert h hk hu i hi
    exact ⟨a, c, ha, hc, hac, hne a c hac⟩
  | find k =>
    obtain ⟨r, hf⟩ := find_returns h k
    refine ⟨s, by simp only [Trace.step, hf], ?_⟩
    intro i hi
    obtain ⟨a, ha⟩ := slotState_some h hi
    exact ⟨a, a, ha, ha, Or.inl rfl, fun h2 => h2⟩
  | erase k =>
    obtain ⟨b, t', hu⟩ := erase_returns h k
    refine ⟨{ table := t', inserted := s.inserted,
              removed := if b then s.removed + 1 else s.removed },
      by simp only [Trace.step, hu], ?_⟩
    intro i hi
    obtain ⟨a, c, ha, hc, hac⟩ := transition_erase h hk hu i hi
    exact ⟨a, c, ha, hc, hac, hne a c hac⟩

theorem slot_state_machine_witness :
    WF (Trace.mk eightTable 3 0).table ∧ nonSentinel (Op.erase 2 : Op Order).key ∧
    (∃ s', (Trace.mk eightTable 3 0).step (.erase 2) = .ok s' ∧ ∀ i, i < 8 →
      ∃ a b, slotState eightTable i = some a ∧ slotState s'.table i = some b ∧
        Transition a b ∧ (a ≠ .empty → b ≠ .empty)) ∧
    slotState eightTable 2 = some .occupied ∧
    slotState (setSlot eightTable 2 { key := 1, val := sampleOrder 2 } 2) 2 =
      some .tombstone ∧
    (Trace.mk eightTable 3 0).step (.erase 2) =
      .ok (Trace.mk (setSlot eightTable 2 { key := 1, val := sampleOrder 2 } 2) 3 1) :=
  ⟨reachable_eightTable.wf, ⟨by decide, by decide⟩,
    slot_state_machine (s := Trace.mk eightTable 3 0) reachable_eightTable.wf
      (show nonSentinel (Op.erase 2 : Op Order).key from ⟨by decide, by decide⟩),
    by decide, by decide, by decide⟩

/-! ## C16: `size()` is the number of occupied slots -/

theorem Trace.cap_of_step {s s' : Trace Val} (h : WF s.table) {op : Op Val}
    (hs : s.step op = .ok s') : s'.table.cap_ = s.table.cap_ := by
  cases op with
  | upsert k v =>
    simp only [Trace.step] at hs
    split at hs <;> try cases hs
    next b t' hu => exact cap_of_upsert h hu
  | find k =>
    simp only [Trace.step] at hs
    split at hs <;> try cases hs
    rfl
  | erase k =>
    simp only [Trace.step] at hs
    split at hs <;> try cases hs
    next b t' hu => exact cap_of_erase h hu

theorem Trace.wf_of_step {s s' : Trace Val} (h : WF s.table) {op : Op Val}
    (hs : s.step op = .ok s') : WF s'.table := by
  cases op with
  | upsert k v =>
    simp only [Trace.step] at hs
    split at hs <;> try cases hs
    next b t' hu => exact h.of_upsert hu
  | find k =>
    simp only [Trace.step] at hs
    split at hs <;> try cases hs
    exact h
  | erase k =>
    simp only [Trace.step] at hs
    split at hs <;> try cases hs
    next b t' hu => exact h.of_erase hu

theorem Trace.cap_of_run : ∀ (ops : List (Op Val)) {s s' : Trace Val}, WF s.table →
    s.run ops = .ok s' → s'.table.cap_ = s.table.cap_
  | [], s, s', _, h => by
    simp only [Trace.run] at h
    cases h
    rfl
  | op :: ops, s, s', hw, h => by
    simp only [Trace.run] at h
    split at h <;> try cases h
    next s1 hs =>
      rw [Trace.cap_of_run ops (Trace.wf_of_step hw hs) h, Trace.cap_of_step hw hs]

/-- C16: in every table state reached from construction by `upsert`, `find` and `erase`
calls with non-sentinel keys, all calls have returned, `size()` equals the number of
occupied slots (slots whose key is neither `EMPTY` nor `TOMBSTONE`), and `size()` does
not exceed the capacity the table was constructed with. -/
theorem live_count_invariant (uninit : Nat → Val) {c : Nat} (hc : c < 2 ^ 64)
    {t0 : FlatHashMap Val} (h0 : construct uninit c = .ok t0) (ops : List (Op Val))
    (hk : ∀ op, op ∈ ops → nonSentinel op.key) :
    ∃ s, (Trace.mk t0 0 0).run ops = .ok s ∧ size s.table = occupied s.table ∧
      size s.table ≤ s.table.cap_ ∧ s.table.cap_ = c := by
  obtain ⟨s, hrun, hb⟩ := Trace.Balanced.run ops (Trace.Balanced.at_construct hc h0) hk
  have hcap : s.table.cap_ = c := by
    rw [Trace.cap_of_run ops (WF.of_construct hc h0) hrun]
    show t0.cap_ = c
    rw [(construct_ok hc h0).2]
  refine ⟨s, hrun, hb.size_occ, ?_, hcap⟩
  show s.table.size_ ≤ _
  rw [hb.size_occ]
  exact occupied_le hb.wf

theorem live_count_invariant_witness :
    (8 : Nat) < 2 ^ 64 ∧ construct zeroOrder 8 = .ok emptyEight ∧
    (∀ op, op ∈ sampleOps → nonSentinel op.key) ∧
    (∃ s, (Trace.mk emptyEight 0 0).run sampleOps = .ok s ∧
      size s.table = occupied s.table ∧ size s.table ≤ s.table.cap_ ∧ s.table.cap_ = 8) ∧
    (∃ s, (Trace.mk emptyEight 0 0).run sampleOps = .ok s ∧ size s.table = 2 ∧
      occupied s.table = 2) :=
  ⟨by decide, by decide, by decide,
    live_count_invariant zeroOrder (show (8 : Nat) < 2 ^ 64 by decide)
      (show construct zeroOrder 8 = .ok emptyEight by decide) sampleOps (by decide),
    ⟨Trace.mk (setSlot (setSlot eightTable 1 { key := 10, val := sampleOrder 11 } 3)
        2 { key := 1, val := sampleOrder 2 } 2) 3 1, by decide, by decide, by decide⟩⟩

/-! ## C19: every live key can be found -/

/-- Writing a non-`EMPTY` key into a slot keeps `NoEmptyBefore`, provided the new key,
if it is a live key, has no `EMPTY` slot before that slot on its own probe sequence. -/
theorem NoEmptyBefore.write_slot {t : FlatHashMap Val} (hne : NoEmptyBefore t) {s : Nat}
    (hs : s < t.entries_.length) (e : Entry Val) (sz : Nat) (he : e.key ≠ EMPTY)
    (hnew : nonSentinel e.key → ∃ j, j ≤ MAX_PROBES ∧ probe t e.key j = s ∧
      ∀ j', j' < j → keyAt t (probe t e.key j') ≠ some EMPTY) :
    NoEmptyBefore (setSlot t s e sz) := by
  have hpath : ∀ (k : Key) (j : Nat),
      (∀ j', j' < j → keyAt t (probe t k j') ≠ some EMPTY) →
      ∀ j', j' < j → keyAt (FlatHashMap.setSlot t s e sz)
        (probe (FlatHashMap.setSlot t s e sz) k j') ≠ some EMPTY := by
    intro k j hold j' hj'
    rw [probe_setSlot, keyAt_setSlot t e sz _ hs]
    by_cases hp : probe t k j' = s
    · simp only [hp, if_true]
      exact fun h2 => he (Option.some.inj h2)
    · simp only [hp, if_false]
      exact hold j' hj'
  intro i k hi hk
  rw [keyAt_setSlot t e sz _ hs] at hi
  by_cases his : i = s
  · simp only [his, if_true, Option.some.injEq] at hi
    subst hi
    obtain ⟨j, hj, hpj, hold⟩ := hnew hk
    exact ⟨j, hj, by rw [probe_setSlot, hpj, his], hpath _ j hold⟩
  · simp only [his, if_false] at hi
    obtain ⟨j, hj, hpj, hold⟩ := hne i k hi hk
    exact ⟨j, hj, by rw [probe_setSlot, hpj], hpath _ j hold⟩

theorem NoEmptyBefore.after_upsert {t t' : FlatHashMap Val} (hne : NoEmptyBefore t) (h : WF t)
    {k : Key} (hk : nonSentinel k) {v : Val} {b : Bool} (hu : upsert t k v = .ok (b, t')) :
    NoEmptyBefore t' := by
  rw [upsert_eq h] at hu
  cases hf : firstHit (hitU t k) (MAX_PROBES + 1) 0 with
  | none =>
    rw [hf] at hu
    cases hu
    exact hne
  | some m =>
    rw [hf] at hu
    obtain ⟨_, hm, _, hfirst⟩ := firstHit_eq_some.mp hf
    have hlen : probe t k m < t.entries_.length := by rw [h.len]; exact h.probe_lt k m
    have key : ∀ sz, NoEmptyBefore (FlatHashMap.setSlot t (probe t k m) { key := k, val := v } sz) :=
      fun sz => hne.write_slot hlen _ sz hk.1
        (fun _ => ⟨m, by omega, rfl,
          fun j' hj' => (hitU_false_iff.mp (hfirst j' (Nat.zero_le j') hj')).1⟩)
    by_cases hc : keyAt t (probe t k m) = some EMPTY ∨ keyAt t (probe t k m) = some TOMBSTONE
    · simp only [hc, if_true] at hu
      cases hu
      exact key _
    · simp only [hc, if_false] at hu
      cases hu
      exact key _

theorem NoEmptyBefore.after_erase {t t' : FlatHashMap Val} (hne : NoEmptyBefore t) (h : WF t)
    {k : Key} {b : Bool} (hu : erase t k = .ok (b, t')) : NoEmptyBefore t' := by
  cases b with
  | false =>
    have ht : t' = t := by
      rw [erase_eq h] at hu
      split at hu
      · cases hu; rfl
      · split at hu
        · cases hu; rfl
        · cases hu
    subst ht
    exact hne
  | true =>
    obtain ⟨m, e, _, _, _, _, _, ht'⟩ := erase_true_inv h hu
    have hlen : probe t k m < t.entries_.length := by rw [h.len]; exact h.probe_lt k m
    rw [ht']
    exact hne.write_slot hlen _ _ (show TOMBSTONE ≠ EMPTY by decide)
      (fun hns => absurd rfl hns.2)

theorem Reachable.noEmptyBefore {t : FlatHashMap Val} (hr : Reachable t) :
    NoEmptyBefore t := by
  induction hr with
  | construct uninit c t hc h =>
    intro i k hi hk
    exact absurd ⟨i, hi⟩ (construct_no_live_key hc h hk)
  | upsert t k v b t' hr hk hu ih => exact ih.after_upsert hr.wf hk hu
  | erase t k b t' hr _ hu ih => exact ih.after_erase hr.wf hu

/-- A key with no `EMPTY` slot before it on its probe sequence is found. -/
theorem foundAt_of_noEmpty {t : FlatHashMap Val} {k : Key} (hk : k ≠ EMPTY) {j : Nat}
    (hj : j ≤ MAX_PROBES) (hkey : keyAt t (probe t k j) = some k)
    (hpath : ∀ j', j' < j → keyAt t (probe t k j') ≠ some EMPTY) :
    ∃ m, m ≤ j ∧ FoundAt t k m := by
  rcases firstHit_cases (hitF t k) (j + 1) with ⟨_, hnone⟩ | ⟨m, _, hm, hhit, hfirst⟩
  · have := hnone j (by omega)
    rw [hitF_true_iff.mpr (Or.inr hkey)] at this
    cases this
  · refine ⟨m, by omega, by omega, ?_, fun j' hj' => hitF_false_iff.mp (hfirst j' hj')⟩
    rcases hitF_true_iff.mp hhit with h1 | h1
    · exfalso
      rcases Nat.lt_or_ge m j with hlt | hge
      · exact hpath m hlt h1
      · have hmj : m = j := by omega
        rw [hmj, hkey] at h1
        exact hk (Option.some.inj h1)
    · exact h1

/-- Writing key `k` into a slot that did not hold `k'` leaves `find(k')` and what it
points to unchanged, on a table in which every live key has no `EMPTY` slot before it. -/
theorem findEntry_setSlot_other {t : FlatHashMap Val} (h : WF t) (hne : NoEmptyBefore t)
    {s : Nat} (hs : s < t.entries_.length) {k k' : Key} (hk : nonSentinel k)
    (hk' : nonSentinel k') (hkk : k ≠ k') (hold : keyAt t s ≠ some k') (v : Val) {sz : Nat}
    (hsz : sz < 2 ^ 64) :
    find (setSlot t s { key := k, val := v } sz) k' = find t k' ∧
    findEntry (setSlot t s { key := k, val := v } sz) k' = findEntry t k' := by
  have hw' := h.setSlot s { key := k, val := v } hsz
  have hkey' : ∀ j, keyAt (setSlot t s { key := k, val := v } sz) j =
      if j = s then some k else keyAt t j := fun j => keyAt_setSlot t _ sz j hs
  rcases find_cases h hk'.1 with ⟨hnone, hno⟩ | ⟨m, hm, hf⟩
  · have hno' : ¬ ∃ m, FoundAt (setSlot t s { key := k, val := v } sz) k' m := by
      rintro ⟨m, hm⟩
      have hkm := hm.2.1
      rw [probe_setSlot, hkey'] at hkm
      by_cases hp : probe t k' m = s
      · simp only [hp, if_true] at hkm
        exact hkk (Option.some.inj hkm)
      · simp only [hp, if_false] at hkm
        obtain ⟨j, hj, hpj, hpath⟩ := hne _ k' hkm hk'
        obtain ⟨m0, _, hm0⟩ := foundAt_of_noEmpty hk'.1 hj (by rw [hpj]; exact hkm) hpath
        exact hno ⟨m0, hm0⟩
    have hnone' : find (setSlot t s { key := k, val := v } sz) k' = .ok none := by
      rcases find_cases hw' hk'.1 with ⟨h1, _⟩ | ⟨m, hm, _⟩
      · exact h1
      · exact absurd ⟨m, hm⟩ hno'
    refine ⟨by rw [hnone', hnone], ?_⟩
    unfold findEntry
    rw [hnone', hnone]
  · have hps : probe t k' m ≠ s := by
      intro hp
      rw [← hp] at hold
      exact hold hm.2.1
    have hm' : FoundAt (setSlot t s { key := k, val := v } sz) k' m := by
      refine ⟨hm.1, ?_, ?_⟩
      · rw [probe_setSlot, hkey']
        simp only [hps, if_false]
        exact hm.2.1
      · intro j hj
        rw [probe_setSlot, hkey']
        by_cases hp : probe t k' j = s
        · simp only [hp, if_true]
          exact ⟨fun h2 => hk.1 (Option.some.inj h2), fun h2 => hkk (Option.some.inj h2)⟩
        · simp only [hp, if_false]
          exact hm.2.2 j hj
    have hf' := find_of_foundAt hw' hk'.1 hm'
    rw [probe_setSlot] at hf'
    refine ⟨by rw [hf', hf], ?_⟩
    unfold findEntry
    rw [hf', hf]
    simp only [deref_setSlot_of_ne t _ sz hps]

/-- C18: in every table state reachable from construction by `upsert` and `erase` calls
with non-sentinel keys, for every pair of distinct non-sentinel keys `k` and `k'`,
`upsert(k, v)` returns, and `find(k')` gives the same result after it as before (the
same slot with the same value, or `nullptr` both times), whether the upsert inserted,
updated or was rejected. -/
theorem upsert_keeps_other_keys {t : FlatHashMap Val} (hr : Reachable t) {k k' : Key}
    (hk : nonSentinel k) (hk' : nonSentinel k') (hne : k ≠ k') (v : Val) :
    ∃ b t', upsert t k v = .ok (b, t') ∧ find t' k' = find t k' ∧
      findEntry t' k' = findEntry t k' := by
  have h := hr.wf
  obtain ⟨b, t', hu⟩ := upsert_returns h k v
  refine ⟨b, t', hu, ?_⟩
  rw [upsert_eq h] at hu
  cases hf : firstHit (hitU t k) (MAX_PROBES + 1) 0 with
  | none =>
    rw [hf] at hu
    cases hu
    exact ⟨rfl, rfl⟩
  | some m =>
    rw [hf] at hu
    obtain ⟨_, _, hhit, _⟩ := firstHit_eq_some.mp hf
    have hlen : probe t k m < t.entries_.length := by rw [h.len]; exact h.probe_lt k m
    have hold : keyAt t (probe t k m) ≠ some k' := by
      intro h2
      rcases hitU_true_iff.mp hhit with h1 | h1 | h1
      · rw [h1] at h2
        exact hk'.1 (Option.some.inj h2).symm
      · rw [h1] at h2
        exact hk'.2 (Option.some.inj h2).symm
      · rw [h1] at h2
        exact hne (Option.some.inj h2)
    by_cases hc : keyAt t (probe t k m) = some EMPTY ∨ keyAt t (probe t k m) = some TOMBSTONE
    · simp only [hc, if_true] at hu
      cases hu
      exact findEntry_setSlot_other h hr.noEmptyBefore hlen hk hk' hne hold v
        (Nat.mod_lt _ (by decide))
    · simp only [hc, if_false] at hu
      cases hu
      exact findEntry_setSlot_other h hr.noEmptyBefore hlen hk hk' hne hold v h.size_lt

theorem upsert_keeps_other_keys_witness :
    Reachable eightTable ∧ nonSentinel 26 ∧ nonSentinel 18 ∧ nonSentinel 2 ∧
    (26 : Key) ≠ 18 ∧ (2 : Key) ≠ 18 ∧
    (∃ b t', upsert eightTable 26 (sampleOrder 26) = .ok (b, t') ∧
      find t' 18 = find eightTable 18 ∧ findEntry t' 18 = findEntry eightTable 18) ∧
    (∃ b t', upsert eightTable 2 (sampleOrder 22) = .ok (b, t') ∧
      find t' 18 = find eightTable 18 ∧ findEntry t' 18 = findEntry eightTable 18) ∧
    upsert eightTable 26 (sampleOrder 26) =
      .ok (true, setSlot eightTable 4 { key := 26, val := sampleOrder 26 } 4) ∧
    findEntry (setSlot eightTable 4 { key := 26, val := sampleOrder 26 } 4) 18 =
      .ok (some (3, some (sampleOrder 18))) ∧
    findEntry eightTable 18 = .ok (some (3, some (sampleOrder 18))) :=
  ⟨reachable_eightTable, ⟨by decide, by decide⟩, ⟨by decide, by decide⟩,
    ⟨by decide, by decide⟩, by decide, by decide,
    upsert_keeps_other_keys reachable_eightTable
      (show nonSentinel 26 from ⟨by decide, by decide⟩)
      (show nonSentinel 18 from ⟨by decide, by decide⟩) (by decide) (sampleOrder 26),
    upsert_keeps_other_keys reachable_eightTable
      (show nonSentinel 2 from ⟨by decide, by decide⟩)
      (show nonSentinel 18 from ⟨by decide, by decide⟩) (by decide) (sampleOrder 22),
    by decide, by decide, by decide⟩

end FlatHashMap

/-! ## C20: `ceil_pow2` -/

theorem ceil_pow2_loop_eq (y : Nat) :
    ceil_pow2_loop 7 y 1 =
      .ok (smearStep 32 (smearStep 16 (smearStep 8 (smearStep 4
        (smearStep 2 (smearStep 1 y)))))) := by
  rfl

theorem Smeared.start (y : Nat) : Smeared y 1 y := by
  intro j
  constructor
  · intro h
    exact ⟨0, by omega, h⟩
  · rintro ⟨d, hd, h⟩
    have : d = 0 := by omega
    subst this
    exact h

theorem Smeared.double {y n z : Nat} (h : Smeared y n z) :
    Smeared y (2 * n) (smearStep n z) := by
  intro j
  unfold smearStep
  rw [Nat.testBit_or, Nat.testBit_shiftRight, Bool.or_eq_true, h j, h (n + j)]
  constructor
  · rintro (⟨d, hd, hb⟩ | ⟨d, hd, hb⟩)
    · exact ⟨d, by omega, hb⟩
    · exact ⟨n + d, by omega, by rw [← hb]; congr 1; omega⟩
  · rintro ⟨d, hd, hb⟩
    by_cases hdn : d < n
    · exact Or.inl ⟨d, hdn, hb⟩
    · exact Or.inr ⟨d - n, by omega, by rw [← hb]; congr 1; omega⟩

/-- The six turns of the loop turn a number with highest set bit `i` into
`2 ^ (i + 1) - 1`. -/
theorem smear_eq {y i : Nat} (htop : y.testBit i = true)
    (habove : ∀ j, i < j → y.testBit j = false) (hi : i < 64) :
    smearStep 32 (smearStep 16 (smearStep 8 (smearStep 4 (smearStep 2 (smearStep 1 y))))) =
      2 ^ (i + 1) - 1 := by
  have h64 : Smeared y 64 (smearStep 32 (smearStep 16 (smearStep 8 (smearStep 4
      (smearStep 2 (smearStep 1 y)))))) :=
    ((((((Smeared.start y).double).double).double).double).double).double
  apply Nat.eq_of_testBit_eq
  intro j
  rw [Nat.testBit_two_pow_sub_one]
  by_cases hj : j < i + 1
  · rw [decide_eq_true hj, h64 j]
    exact ⟨i - j, by omega, by rw [← htop]; congr 1; omega⟩
  · rw [decide_eq_false hj]
    cases hb : Nat.testBit (smearStep 32 (smearStep 16 (smearStep 8 (smearStep 4
        (smearStep 2 (smearStep 1 y)))))) j with
    | false => rfl
    | true =>
      obtain ⟨d, _, hd⟩ := (h64 j).mp hb
      rw [habove (j + d) (by omega)] at hd
      cases hd

theorem ceil_pow2_of_ge_two {x : Nat} (h2 : 2 ≤ x) (hx : x ≤ 2 ^ 63) :
    ∃ n, n ≤ 63 ∧ ceil_pow2 x = .ok (2 ^ n) ∧ x ≤ 2 ^ n ∧ 2 ^ n < 2 * x := by
  have hy0 : x - 1 ≠ 0 := by omega
  obtain ⟨i, htop, habove⟩ := Nat.exists_most_significant_bit hy0
  have hge : 2 ^ i ≤ x - 1 := Nat.testBit_implies_ge htop
  have hlt : x - 1 < 2 ^ (i + 1) :=
    Nat.lt_pow_two_of_testBit _ (fun j hj => habove j (by omega))
  have hi : i < 63 := by
    by_contra hc
    have : 2 ^ 63 ≤ 2 ^ i := Nat.pow_le_pow_right (by decide) (by omega)
    omega
  have hpos : 0 < 2 ^ (i + 1) := Nat.pos_pow_of_pos _ (by decide)
  have hle64 : 2 ^ (i + 1) ≤ 2 ^ 63 := Nat.pow_le_pow_right (by decide) (by omega)
  have hpre : (x + 2 ^ 64 - 1) % 2 ^ 64 = x - 1 := by omega
  have hnot : ¬ x ≤ 1 := by omega
  refine ⟨i + 1, by omega, ?_, by omega, ?_⟩
  · unfold ceil_pow2
    simp only [hnot, if_false]
    rw [hpre, ceil_pow2_loop_eq, smear_eq htop habove (by omega)]
    simp only
    have : (2 ^ (i + 1) - 1 + 1) % 2 ^ 64 = 2 ^ (i + 1) := by omega
    rw [this]
  · have : 2 ^ (i + 1) = 2 * 2 ^ i := by rw [Nat.pow_succ]; omega
    omega

/-- The constructor with its allocation agrees with `construct` whenever it returns
a table. -/
theorem constructAlloc_ok {avail : Nat} {uninit : Nat → Order} {c : Nat}
    {t : FlatHashMap Order} (h : FlatHashMap.constructAlloc avail uninit c = .ok t) :
    FlatHashMap.construct uninit c = .ok t := by
  unfold FlatHashMap.constructAlloc at h
  unfold FlatHashMap.construct
  by_cases hg : c = 0 ∨ (c &&& ((c + 2 ^ 64 - 1) % 2 ^ 64)) ≠ 0
  · simp only [hg, if_true] at h
    cases h
  · simp only [hg, if_false] at h ⊢
    by_cases h1 : 2 ^ 64 ≤ c * FlatHashMap.SIZEOF_ENTRY
    · simp only [h1, if_true] at h
      cases h
    · simp only [h1, if_false] at h
      by_cases h2 : avail < c * FlatHashMap.SIZEOF_ENTRY
      · simp only [h2, if_true] at h
        cases h
      · simp only [h2, if_false] at h
        cases h
        rfl

/-- At a power-of-two capacity the capacity check passes, and how the constructor
ends is decided by the allocation alone. -/
theorem constructAlloc_two_pow (avail : Nat) (uninit : Nat → Order) {n : Nat}
    (hn : n ≤ 63) :
    FlatHashMap.constructAlloc avail uninit (2 ^ n) ≠ .invalid_argument ∧
    ((2 ^ n * FlatHashMap.SIZEOF_ENTRY < 2 ^ 64 ∧ 2 ^ n * FlatHashMap.SIZEOF_ENTRY ≤ avail) ↔
      ∃ t, FlatHashMap.constructAlloc avail uninit (2 ^ n) = .ok t) := by
  have hc : 2 ^ n < 2 ^ 64 := Nat.pow_lt_pow_right (by decide) (by omega)
  have hg : ¬ (2 ^ n = 0 ∨ (2 ^ n &&& ((2 ^ n + 2 ^ 64 - 1) % 2 ^ 64)) ≠ 0) := by
    intro hg
    rcases (FlatHashMap.construct_guard hc).mp hg with h0 | h0
    · exact absurd h0 (Nat.pos_iff_ne_zero.mp (Nat.pos_pow_of_pos n (by decide)))
    · exact h0 ⟨n, rfl⟩
  unfold FlatHashMap.constructAlloc
  dsimp only
  rw [if_neg hg]
  by_cases h1 : 2 ^ 64 ≤ 2 ^ n * FlatHashMap.SIZEOF_ENTRY
  · rw [if_pos h1]
    refine ⟨(fun h => by cases h), ?_⟩
    constructor
    · rintro ⟨h3, _⟩
      omega
    · rintro ⟨t, ht⟩
      cases ht
  · rw [if_neg h1]
    by_cases h2 : avail < 2 ^ n * FlatHashMap.SIZEOF_ENTRY
    · rw [if_pos h2]
      refine ⟨(fun h => by cases h), ?_⟩
      constructor
      · rintro ⟨_, h3⟩
        omega
      · rintro ⟨t, ht⟩
        cases ht
    · rw [if_neg h2]
      refine ⟨(fun h => by cases h), ?_⟩
      constructor
      · intro _
        exact ⟨_, rfl⟩
      · intro _
        exact ⟨by omega, by omega⟩

/-- C20, the claim as stated fails: `2 ^ 63` is within the bound and `ceil_pow2(2 ^ 63)`
is `2 ^ 63`, yet constructing a table of that capacity throws at `new Entry[cap_]`
whatever the free store holds, since the array would take `2 ^ 68` bytes; and with a
free store of `2 ^ 40` bytes the capacity `ceil_pow2(2 ^ 36)` is refused as well. -/
theorem construction_fails_at_large_ceil_pow2 :
    (2 : Nat) ^ 63 ≤ 2 ^ 63 ∧ ceil_pow2 (2 ^ 63) = .ok (2 ^ 63) ∧
    (∀ avail uninit,
      FlatHashMap.constructAlloc avail uninit (2 ^ 63) = .bad_array_new_length) ∧
    (2 : Nat) ^ 36 ≤ 2 ^ 63 ∧ ceil_pow2 (2 ^ 36) = .ok (2 ^ 36) ∧
    (∀ uninit, FlatHashMap.constructAlloc (2 ^ 40) uninit (2 ^ 36) = .bad_alloc) := by
  refine ⟨by decide, by decide, ?_, by decide, by decide, ?_⟩
  · intro avail uninit
    unfold FlatHashMap.constructAlloc
    rw [if_neg (by decide), if_pos (by decide)]
  · intro uninit
    unfold FlatHashMap.constructAlloc
    rw [if_neg (by decide), if_neg (by decide), if_pos (by decide)]

/-- C20: for every `x ≤ 2 ^ 63`, `ceil_pow2(x)` returns the smallest power of two that
is at least `x` (it is `1` for `x = 0`); constructing a `FlatHashMap` with that
capacity, as the benchmark adapter does, never throws `std::invalid_argument`, and it
returns a table exactly when the allocation of the slot array succeeds: the array's
size in bytes is below `2 ^ 64` and the free store can provide it. -/
theorem ceil_pow2_spec (uninit : Nat → Order) {x : Nat} (hx : x ≤ 2 ^ 63) :
    ceil_pow2 0 = .ok 1 ∧
    ∃ n, ceil_pow2 x = .ok (2 ^ n) ∧ x ≤ 2 ^ n ∧ (∀ m, x ≤ 2 ^ m → 2 ^ n ≤ 2 ^ m) ∧
      ∀ avail,
        FlatHashMap.constructAlloc avail uninit (2 ^ n) ≠ .invalid_argument ∧
        ((2 ^ n * FlatHashMap.SIZEOF_ENTRY < 2 ^ 64 ∧
            2 ^ n * FlatHashMap.SIZEOF_ENTRY ≤ avail) ↔
          ∃ t, FlatHashMap.constructAlloc avail uninit (2 ^ n) = .ok t) := by
  refine ⟨rfl, ?_⟩
  by_cases h1 : x ≤ 1
  · refine ⟨0, ?_, by omega, ?_, ?_⟩
    · unfold ceil_pow2
      simp only [h1, if_true]
      rfl
    · intro m _
      exact Nat.pow_le_pow_right (by decide) (Nat.zero_le m)
    · intro avail
      exact constructAlloc_two_pow avail uninit (by omega)
  · obtain ⟨n, hn, hc, hle, hlt⟩ := ceil_pow2_of_ge_two (by omega) hx
    refine ⟨n, hc, hle, ?_, ?_⟩
    · intro m hm
      by_contra hcon
      have hmn : m + 1 ≤ n := by
        by_contra h3
        exact hcon (Nat.pow_le_pow_right (by decide) (by omega))
      have h4 : 2 ^ (m + 1) ≤ 2 ^ n := Nat.pow_le_pow_right (by decide) hmn
      have h5 : 2 ^ (m + 1) = 2 * 2 ^ m := by rw [Nat.pow_succ]; omega
      omega
    · intro avail
      exact constructAlloc_two_pow avail uninit hn

theorem ceil_pow2_spec_witness :
    (250000 : Nat) ≤ 2 ^ 63 ∧
    (ceil_pow2 0 = .ok 1 ∧
      ∃ n, ceil_pow2 250000 = .ok (2 ^ n) ∧ 250000 ≤ 2 ^ n ∧
        (∀ m, 250000 ≤ 2 ^ m → 2 ^ n ≤ 2 ^ m) ∧
        ∀ avail,
          FlatHashMap.constructAlloc avail FlatHashMap.zeroOrder (2 ^ n) ≠
            .invalid_argument ∧
          ((2 ^ n * FlatHashMap.SIZEOF_ENTRY < 2 ^ 64 ∧
              2 ^ n * FlatHashMap.SIZEOF_ENTRY ≤ avail) ↔
            ∃ t, FlatHashMap.constructAlloc avail FlatHashMap.zeroOrder (2 ^ n) = .ok t)) ∧
    ceil_pow2 250000 = .ok 262144 ∧ ceil_pow2 1 = .ok 1 ∧ ceil_pow2 2 = .ok 2 ∧
    ceil_pow2 3 = .ok 4 ∧ ceil_pow2 (2 ^ 63) = .ok (2 ^ 63) ∧
    ceil_pow2 (2 ^ 63 + 1) = .ok 0 ∧
    FlatHashMap.constructAlloc 256 FlatHashMap.zeroOrder 8 = .ok FlatHashMap.emptyEight ∧
    FlatHashMap.constructAlloc 255 FlatHashMap.zeroOrder 8 = .bad_alloc ∧
    FlatHashMap.constructAlloc 256 FlatHashMap.zeroOrder 6 = .invalid_argument :=
  ⟨by decide, ceil_pow2_spec FlatHashMap.zeroOrder (by decide), by decide, by decide,
    by decide, by decide, by decide, by decide, by decide, by decide, by decide⟩

end OrderMap
